import Mathlib

/-!
Verification development for the OpenWrt dnsmasq DNS API driver
(`src/server/dnsmassq-api-driver.py`).

The Python source is shallowly embedded below.  Pure string manipulation is
translated to executable functions on `List Char` / `String`; the external
`uci` configuration tool and the resolver-reload command are modelled by an
explicit `World` state (the current `dhcp.@dnsmasq[0].address` list plus
failure switches for the external commands), and every handler returns,
alongside its JSON response, the final world and the trace of external
commands it invoked, in order.
-/

namespace DnsApi

/-- A DNS host-override record, `{"domain": ..., "ip": ...}` in the source. -/
structure Record where
  domain : String
  ip : String
deriving DecidableEq, Repr

/-! ## Python string primitives

The Python methods used by the source (`str.split`, `str.strip`,
`in`-containment, `str.splitlines`, `str.count`) are embedded as executable
functions over `List Char`.  All inputs handled by this program are ASCII, so
`strip()` is modelled as stripping the ASCII whitespace characters. -/

/-- `s.split(c)`: split on every occurrence of the character `c`
(`n` separators yield `n+1` parts, empty parts kept). -/
def splitOnChar (c : Char) : List Char → List (List Char)
  | [] => [[]]
  | x :: xs =>
    match splitOnChar c xs with
    | [] => [[]]
    | p :: ps => if x = c then [] :: p :: ps else (x :: p) :: ps

/-- `s.split(c, 1)` when at least one separator occurrence exists:
the part before the first `c` and everything after it. -/
def splitFirst (c : Char) : List Char → Option (List Char × List Char)
  | [] => none
  | x :: xs =>
    if x = c then some ([], xs)
    else
      match splitFirst c xs with
      | none => none
      | some (a, b) => some (x :: a, b)

/-- The whitespace characters stripped by Python's `str.strip()` (ASCII). -/
def pyWs (c : Char) : Bool :=
  c == ' ' || c == '\t' || c == '\n' || c == '\r' || c == '\x0b' || c == '\x0c'

/-- Python `str.strip(chars)`: drop characters satisfying `p` from both ends. -/
def pyStrip (p : Char → Bool) (l : List Char) : List Char :=
  ((l.dropWhile p).reverse.dropWhile p).reverse

/-- Python substring containment `pat in s` (left-to-right scan). -/
def containsSeq (pat : List Char) : List Char → Bool
  | [] => pat.isEmpty
  | x :: xs => pat.isPrefixOf (x :: xs) || containsSeq pat xs

/-- Helper for `splitQS`: prepend a character to the first part. -/
def consHead (x : Char) : List (List Char) → List (List Char)
  | [] => [[x]]
  | p :: ps => (x :: p) :: ps

/-- Python `v.split("' '")`: split on non-overlapping occurrences of the
three-character separator quote-space-quote, scanning left to right. -/
def splitQS : List Char → List (List Char)
  | [] => [[]]
  | [x] => [[x]]
  | [x, y] => [[x, y]]
  | x :: y :: z :: rest =>
    if x = '\'' ∧ y = ' ' ∧ z = '\'' then [] :: splitQS rest
    else consHead x (splitQS (y :: z :: rest))

/-- Python `out.splitlines()` for `\n`-separated text: split on `\n` and
drop the trailing empty piece produced by a final newline (so `""` gives
no lines at all). -/
def pySplitlines (l : List Char) : List (List Char) :=
  let ps := splitOnChar '\n' l
  if ps.getLast? = some [] then ps.dropLast else ps

/-- Python `int(p)` for a string of decimal digits. -/
def toNatDigits (l : List Char) : Nat :=
  l.foldl (fun n c => 10 * n + (c.toNat - '0'.toNat)) 0

/-! ## Validator (source lines 14-15, 28-35)

`RE_DOMAIN = ^(?:[a-zA-Z0-9-]+\.)*[a-zA-Z0-9-]+$` and
`RE_IP = ^(?:\d{1,3}\.){3}\d{1,3}$`, used with `fullmatch`.  A string
fullmatches `RE_DOMAIN` iff splitting it on `.` yields only non-empty
groups of letters/digits/hyphens (at least one group always exists), and it
fullmatches `RE_IP` iff splitting on `.` yields exactly four groups of one
to three decimal digits; the embeddings below state the regexes through
that characterization. -/

/-- A character of the domain-label class `[a-zA-Z0-9-]`. -/
def isDomChar (c : Char) : Bool := c.isAlpha || c.isDigit || c == '-'

/-- `RE_DOMAIN.fullmatch` (source line 14). -/
def reDomainMatch (l : List Char) : Bool :=
  (splitOnChar '.' l).all fun p => !p.isEmpty && p.all isDomChar

/-- `RE_IP.fullmatch` (source line 15). -/
def reIPMatch (l : List Char) : Bool :=
  let ps := splitOnChar '.' l
  ps.length == 4 &&
    ps.all fun p => decide (1 ≤ p.length) && decide (p.length ≤ 3) && p.all Char.isDigit

/-- `validate_domain` (source lines 28-29). -/
def validate_domain (domain : String) : Bool :=
  reDomainMatch domain.toList

/-- `validate_ip` (source lines 31-35): regex fullmatch, then every
dot-separated group parsed as an integer must be `≤ 255` (the lower bound
`0 ≤ int(p)` always holds for digit groups). -/
def validate_ip (ip : String) : Bool :=
  if !reIPMatch ip.toList then false
  else (splitOnChar '.' ip.toList).all fun p => toNatDigits p ≤ 255

/-! ## Record parser (source lines 49-79, the loop body of `get_records`) -/

/-- The marker `".address="` checked with `in` (source line 51). -/
def addrPat : List Char := ['.', 'a', 'd', 'd', 'r', 'e', 's', 's', '=']

/-- The separator `"' '"` (source lines 58-59). -/
def qsPat : List Char := ['\'', ' ', '\'']

/-- `v.strip().strip("'").strip('"')` (source lines 55 and 61). -/
def cleanVal (l : List Char) : List Char :=
  pyStrip (fun c => c == '"') (pyStrip (fun c => c == '\'') (pyStrip pyWs l))

/-- Source lines 57-65: if the value contains `"' '"`, split on it and keep
the non-empty cleaned parts; otherwise the whole value is the one entry. -/
def extractEntries (v : List Char) : List (List Char) :=
  if containsSeq qsPat v then
    (splitQS v).filterMap fun part =>
      let p := cleanVal part
      if p.isEmpty then none else some p
  else [v]

/-- Source lines 68-69: strip one leading `/` if present. -/
def stripLead (entry : List Char) : List Char :=
  if entry.head? = some '/' then entry.tail else entry

/-- Source lines 67-73, the per-entry body: strip one leading `/`, require
exactly one remaining `/`, split into domain and ip, require both non-empty
and the domain to contain a dot, and emit the stripped record; any failing
entry yields nothing. -/
def parseEntry (entry : List Char) : Option Record :=
  if (stripLead entry).count '/' = 1 then
    match splitOnChar '/' (stripLead entry) with
    | [d, i] =>
      if d ≠ [] ∧ i ≠ [] ∧ '.' ∈ d then
        some ⟨String.mk (pyStrip pyWs d), String.mk (pyStrip pyWs i)⟩
      else none
    | _ => none
  else none

/-- One iteration of the line loop (source lines 50-77): skip lines without
the `".address="` marker; split on the first `=` (if a line had the marker
but no `=` the tuple unpacking would raise and be caught, yielding nothing);
clean the value, extract entries and parse each one. -/
def lineRecords (line : List Char) : List Record :=
  if containsSeq addrPat line then
    match splitFirst '=' line with
    | none => []
    | some (_, v0) => (extractEntries (cleanVal v0)).filterMap parseEntry
  else []

/-- Parsing the full dump text: `out.splitlines()` then the line loop. -/
def parseDump (out : String) : List Record :=
  ((pySplitlines out.toList).map lineRecords).flatten

/-! ## External command model

The program shells out to `uci` and to the dnsmasq init script.  Modelled
from the spec's external-interface section: the configuration store is the
current list of `dhcp.@dnsmasq[0].address` entries; `uci show dhcp` prints
that list as one key=value line with each entry single-quoted and entries
separated by spaces; `uci add_list` appends an entry; `uci del_list`
removes every matching entry; `uci commit` and the resolver reload do not
change the list.  `World` additionally carries failure switches so that
non-zero exit codes of each command kind can be exercised. -/

/-- The key printed by `uci show dhcp` for the address list. -/
def dumpKey : List Char :=
  ['d', 'h', 'c', 'p', '.', '@', 'd', 'n', 's', 'm', 'a', 's', 'q',
   '[', '0', ']', '.', 'a', 'd', 'd', 'r', 'e', 's', 's']

/-- Join entries with the quote-space-quote separator. -/
def interQS : List (List Char) → List Char
  | [] => []
  | [e] => e
  | e :: f :: es => e ++ qsPat ++ interQS (f :: es)

/-- The text produced by `uci show dhcp` for a given address list:
empty output for an empty list, otherwise the single line
`dhcp.@dnsmasq[0].address='e1' 'e2' ... 'en'`. -/
def renderDump (store : List String) : String :=
  match store with
  | [] => ""
  | _ => String.mk (dumpKey ++ '=' :: '\'' :: (interQS (store.map String.toList) ++ ['\'']))

/-- The external commands the driver invokes (source lines 45, 115, 119,
120, 145, 148-150, 174, 176-177). -/
inductive Cmd
  | uciShow
  | addList (entry : String)
  | delList (entry : String)
  | commit
  | reload
deriving DecidableEq, Repr

/-- The state of the outside world: the address list and failure switches
for the three checked/unchecked command kinds. -/
structure World where
  store : List String
  showFail : Option String
  addFail : Option String
  delFail : Bool
deriving DecidableEq, Repr

/-- `run_cmd` (source lines 37-42) composed with the modelled command
semantics: returns `(returncode, stdout, stderr)` and the next world. -/
def runCmd (w : World) (c : Cmd) : (Int × String × String) × World :=
  match c with
  | .uciShow =>
    match w.showFail with
    | some e => ((1, "", e), w)
    | none => ((0, renderDump w.store, ""), w)
  | .addList entry =>
    match w.addFail with
    | some e => ((1, "", e), w)
    | none => ((0, "", ""), { w with store := w.store ++ [entry] })
  | .delList entry =>
    if w.delFail then ((1, "", ""), w)
    else ((0, "", ""), { w with store := w.store.filter (· ≠ entry) })
  | .commit => ((0, "", ""), w)
  | .reload => ((0, "", ""), w)

/-- `get_records` (source lines 44-79): run `uci show dhcp`; on non-zero
exit return `(None, err)`, otherwise parse the dump.  Also reports the
issued command trace. -/
def get_records (w : World) : (Option (List Record) × Option String) × World × List Cmd :=
  let ((rc, out, err), w1) := runCmd w .uciShow
  if rc ≠ 0 then ((none, some err), w1, [.uciShow])
  else ((some (parseDump out), none), w1, [.uciShow])

/-! ## HTTP layer model -/

/-- The JSON responses (body plus status) the driver can produce, plus a
`crash` constructor for an uncaught Python exception escaping the handler. -/
inductive Resp
  | health
  | records (rs : List Record)
  | added (domain ip : String)
  | exists_
  | updated (domain new_ip : String)
  | deleted (domain : String)
  | err (code : Nat) (msg : String)
  | errDetail (code : Nat) (msg detail : String)
  | unauthorized
  | crash (msg : String)
deriving DecidableEq, Repr

/-- The HTTP status code of a response (2xx bodies are returned without an
explicit code in the source, i.e. 200; `abort(401)` is 401; an uncaught
exception is turned into a generic 500 by the framework). -/
def Resp.statusCode : Resp → Nat
  | .health => 200
  | .records _ => 200
  | .added _ _ => 200
  | .exists_ => 200
  | .updated _ _ => 200
  | .deleted _ => 200
  | .err c _ => c
  | .errDetail c _ _ => c
  | .unauthorized => 401
  | .crash _ => 500

/-- The JSON request body: each field either absent or a string
(`data.get(field, "")`). -/
structure Body where
  domain : Option String
  ip : Option String
  new_ip : Option String
deriving DecidableEq, Repr

/-- Result of running one handler: response, final world, and the external
commands issued, in order. -/
structure HResult where
  resp : Resp
  world : World
  trace : List Cmd
deriving DecidableEq, Repr

/-- Python `s.strip()` on a string value. -/
def pyStripStr (s : String) : String := String.mk (pyStrip pyWs s.toList)

/-- The list entry `f"/{domain}/{ip}"` (source lines 108, 144, 147, 173). -/
def entryFor (domain ip : String) : String := "/" ++ domain ++ "/" ++ ip

/-- `list_dns`, `GET /dns` (source lines 90-95). -/
def list_dns (w : World) : HResult :=
  match get_records w with
  | ((none, e), w1, tr) => ⟨.err 500 (e.getD ""), w1, tr⟩
  | ((some rs, _), w1, tr) => ⟨.records rs, w1, tr⟩

/-- `add_dns`, `POST /dns` (source lines 97-123).  When `get_records`
returns `None` the generator expression `any(... for r in records)` raises
`TypeError`, modelled by `.crash`. -/
def add_dns (w : World) (b : Body) : HResult :=
  let domain := pyStripStr (b.domain.getD "")
  let ip := pyStripStr (b.ip.getD "")
  if domain = "" ∨ ip = "" then ⟨.err 400 "domain and ip required", w, []⟩
  else if !validate_domain domain || !validate_ip ip then
    ⟨.err 400 "invalid format", w, []⟩
  else
    let entry := entryFor domain ip
    match get_records w with
    | ((none, _), w1, tr) => ⟨.crash "TypeError", w1, tr⟩
    | ((some records, _), w1, tr) =>
      if records.any (fun r => r.domain == domain && r.ip == ip) then
        ⟨.exists_, w1, tr⟩
      else
        let ((rc2, _, err2), w2) := runCmd w1 (.addList entry)
        if rc2 ≠ 0 then
          ⟨.errDetail 500 "add failed" err2, w2, tr ++ [.addList entry]⟩
        else
          let (_, w3) := runCmd w2 .commit
          let (_, w4) := runCmd w3 .reload
          ⟨.added domain ip, w4, tr ++ [.addList entry, .commit, .reload]⟩

/-- The delete loop of `update_dns`/`delete_dns` (source lines 143-145 and
172-174): one `del_list` per matching record, exit codes unchecked. -/
def delAll (w : World) (rs : List Record) : World × List Cmd :=
  match rs with
  | [] => (w, [])
  | r :: rest =>
    let (_, w1) := runCmd w (.delList (entryFor r.domain r.ip))
    let (w2, tr) := delAll w1 rest
    (w2, .delList (entryFor r.domain r.ip) :: tr)

/-- `update_dns`, `PUT /dns` (source lines 125-153).  Note the final
`add_list` result is discarded (source line 148). -/
def update_dns (w : World) (b : Body) : HResult :=
  let domain := pyStripStr (b.domain.getD "")
  let ip := pyStripStr (b.ip.getD "")
  let new_ip := pyStripStr (b.new_ip.getD "")
  if domain = "" ∨ new_ip = "" then ⟨.err 400 "domain and new_ip required", w, []⟩
  else if !validate_domain domain || !validate_ip new_ip then
    ⟨.err 400 "invalid format", w, []⟩
  else
    match get_records w with
    | ((none, _), w1, tr) => ⟨.crash "TypeError", w1, tr⟩
    | ((some records, _), w1, tr) =>
      let ms := records.filter fun r => r.domain == domain && (ip == "" || r.ip == ip)
      if ms.isEmpty then ⟨.err 404 "not found", w1, tr⟩
      else
        let (w2, trDel) := delAll w1 ms
        let new_entry := entryFor domain new_ip
        let (_, w3) := runCmd w2 (.addList new_entry)
        let (_, w4) := runCmd w3 .commit
        let (_, w5) := runCmd w4 .reload
        ⟨.updated domain new_ip, w5, tr ++ trDel ++ [.addList new_entry, .commit, .reload]⟩

/-- `delete_dns`, `DELETE /dns` (source lines 155-180). -/
def delete_dns (w : World) (b : Body) : HResult :=
  let domain := pyStripStr (b.domain.getD "")
  let ip := pyStripStr (b.ip.getD "")
  if domain = "" then ⟨.err 400 "domain required", w, []⟩
  else if !validate_domain domain then ⟨.err 400 "invalid domain", w, []⟩
  else
    match get_records w with
    | ((none, _), w1, tr) => ⟨.crash "TypeError", w1, tr⟩
    | ((some records, _), w1, tr) =>
      let ms := records.filter fun r => r.domain == domain && (ip == "" || r.ip == ip)
      if ms.isEmpty then ⟨.err 404 "not found", w1, tr⟩
      else
        let (w2, trDel) := delAll w1 ms
        let (_, w3) := runCmd w2 .commit
        let (_, w4) := runCmd w3 .reload
        ⟨.deleted domain, w4, tr ++ trDel ++ [.commit, .reload]⟩

/-- An inbound HTTP request. -/
structure Request where
  path : String
  method : String
  apiKey : Option String
  body : Body
deriving DecidableEq, Repr

/-- Routing after the auth gate: the registered routes
(source lines 86, 90, 97, 125, 155) plus the framework's default 404/405. -/
def dispatch (w : World) (req : Request) : HResult :=
  if req.path = "/health" then ⟨.health, w, []⟩
  else if req.path = "/dns" then
    if req.method = "GET" then list_dns w
    else if req.method = "POST" then add_dns w req.body
    else if req.method = "PUT" then update_dns w req.body
    else if req.method = "DELETE" then delete_dns w req.body
    else ⟨.err 405 "method not allowed", w, []⟩
  else ⟨.err 404 "not found", w, []⟩

/-- The whole request pipeline: `auth_check` (source lines 81-84) runs
`check_auth` (lines 22-26) for every path other than `/health`, aborting
with 401 when the `X-API-Key` header is absent or differs from the
configured secret `cfg`; otherwise the request is dispatched. -/
def app (cfg : String) (w : World) (req : Request) : HResult :=
  if req.path ≠ "/health" ∧ req.apiKey ≠ some cfg then ⟨.unauthorized, w, []⟩
  else dispatch w req

/-! ## Specification-side predicates used in the theorem statements -/

/-- A character that may legitimately occur in a stored entry. -/
def entryChar (c : Char) : Bool := isDomChar c || c == '.' || c == '/'

/-- A (domain, ip) pair that passes both validators and whose domain
contains at least one dot. -/
abbrev GoodPair (d i : String) : Prop :=
  validate_domain d = true ∧ validate_ip i = true ∧ '.' ∈ d.toList

/-! ## Concurrency model for the process-wide lock (source line 18)

Two threads each execute the critical section of `add_dns` (source lines
110-120): acquire the lock, read the records, perform the exists-check and
conditional `add_list` (with `commit`/`reload`, which do not affect the
list), release the lock.  The scheduler may interleave the two threads
arbitrarily; a thread may acquire the lock only when it is free, and every
store access happens between its acquire and release, exactly as in the
source where the whole read-modify-write runs under `with lock:`.  External
commands are assumed to succeed, matching the claim's scenario. -/

/-- Progress of one thread through the `add_dns` critical section. -/
inductive Phase
  | ready
  | locked
  | readDone
  | written
  | done
deriving DecidableEq, Repr

/-- One thread: its progress, the records snapshot it read, and its
response once computed. -/
structure Th where
  phase : Phase
  snap : List Record
  resp : Option Resp
deriving DecidableEq, Repr

/-- The shared state: the store, who holds the lock (`true` = thread A),
and the two threads. -/
structure CState where
  store : List String
  lockBy : Option Bool
  thA : Th
  thB : Th
deriving DecidableEq, Repr

/-- Initial state: given store, lock free, both threads ready. -/
def initC (store : List String) : CState :=
  ⟨store, none, ⟨.ready, [], none⟩, ⟨.ready, [], none⟩⟩

/-- One interleaving step of the two concurrent `add_dns` bodies, thread A
posting `(dA, iA)` and thread B posting `(dB, iB)`. -/
inductive Step (dA iA dB iB : String) : CState → CState → Prop
  | acquireA (s : CState) (h1 : s.lockBy = none) (h2 : s.thA.phase = .ready) :
      Step dA iA dB iB s { s with lockBy := some true, thA := { s.thA with phase := .locked } }
  | readA (s : CState) (h1 : s.lockBy = some true) (h2 : s.thA.phase = .locked) :
      Step dA iA dB iB s
        { s with thA := { s.thA with phase := .readDone, snap := parseDump (renderDump s.store) } }
  | writeA_hit (s : CState) (h1 : s.lockBy = some true) (h2 : s.thA.phase = .readDone)
      (h3 : s.thA.snap.any (fun r => r.domain == dA && r.ip == iA) = true) :
      Step dA iA dB iB s
        { s with thA := { s.thA with phase := .written, resp := some .exists_ } }
  | writeA_miss (s : CState) (h1 : s.lockBy = some true) (h2 : s.thA.phase = .readDone)
      (h3 : s.thA.snap.any (fun r => r.domain == dA && r.ip == iA) = false) :
      Step dA iA dB iB s
        { s with store := s.store ++ [entryFor dA iA],
                 thA := { s.thA with phase := .written, resp := some (.added dA iA) } }
  | releaseA (s : CState) (h1 : s.lockBy = some true) (h2 : s.thA.phase = .written) :
      Step dA iA dB iB s { s with lockBy := none, thA := { s.thA with phase := .done } }
  | acquireB (s : CState) (h1 : s.lockBy = none) (h2 : s.thB.phase = .ready) :
      Step dA iA dB iB s { s with lockBy := some false, thB := { s.thB with phase := .locked } }
  | readB (s : CState) (h1 : s.lockBy = some false) (h2 : s.thB.phase = .locked) :
      Step dA iA dB iB s
        { s with thB := { s.thB with phase := .readDone, snap := parseDump (renderDump s.store) } }
  | writeB_hit (s : CState) (h1 : s.lockBy = some false) (h2 : s.thB.phase = .readDone)
      (h3 : s.thB.snap.any (fun r => r.domain == dB && r.ip == iB) = true) :
      Step dA iA dB iB s
        { s with thB := { s.thB with phase := .written, resp := some .exists_ } }
  | writeB_miss (s : CState) (h1 : s.lockBy = some false) (h2 : s.thB.phase = .readDone)
      (h3 : s.thB.snap.any (fun r => r.domain == dB && r.ip == iB) = false) :
      Step dA iA dB iB s
        { s with store := s.store ++ [entryFor dB iB],
                 thB := { s.thB with phase := .written, resp := some (.added dB iB) } }
  | releaseB (s : CState) (h1 : s.lockBy = some false) (h2 : s.thB.phase = .written) :
      Step dA iA dB iB s { s with lockBy := none, thB := { s.thB with phase := .done } }

/-- Reachability under interleaved execution. -/
def Reach (dA iA dB iB : String) : CState → CState → Prop :=
  Relation.ReflTransGen (Step dA iA dB iB)

/-- A thread is inside its critical section. -/
def inCrit (t : Th) : Prop :=
  t.phase = .locked ∨ t.phase = .readDone ∨ t.phase = .written

/-- The entries a thread has already appended to the store: its own entry
once it has executed its write step. -/
def wrote (d i : String) (t : Th) : List String :=
  match t.phase with
  | .written => [entryFor d i]
  | .done => [entryFor d i]
  | _ => []

/-- Inductive invariant of the two-thread `add_dns` interleaving: the lock
is held by a thread exactly while that thread is in its critical section;
the store is the initial store plus (in some order) the entries of the
threads that have written; a snapshot taken by the thread currently between
read and write reflects the current store; and a thread that has written
has recorded the "added" response. -/
def Inv (pairs0 : List (String × String)) (dA iA dB iB : String) (s : CState) : Prop :=
  (s.lockBy = some true ↔ inCrit s.thA) ∧
  (s.lockBy = some false ↔ inCrit s.thB) ∧
  (∃ l : List String, s.store = (pairs0.map (fun p => entryFor p.1 p.2)) ++ l ∧
      l.Perm (wrote dA iA s.thA ++ wrote dB iB s.thB)) ∧
  (s.thA.phase = .readDone → s.thA.snap = parseDump (renderDump s.store)) ∧
  (s.thB.phase = .readDone → s.thB.snap = parseDump (renderDump s.store)) ∧
  ((s.thA.phase = .written ∨ s.thA.phase = .done) → s.thA.resp = some (.added dA iA)) ∧
  ((s.thB.phase = .written ∨ s.thB.phase = .done) → s.thB.resp = some (.added dB iB))

/-- A character that can occur in a validated domain or IP. -/
def goodChar (c : Char) : Bool := isDomChar c || c.isDigit || c == '.'

/-! ## Supporting lemmas: `splitOnChar` -/

theorem splitOnChar_ne_nil (c : Char) (l : List Char) : splitOnChar c l ≠ [] := by
  cases l with
  | nil => simp [splitOnChar]
  | cons x xs =>
    cases h : splitOnChar c xs with
    | nil => exact absurd h (splitOnChar_ne_nil c xs)
    | cons p ps =>
      simp only [splitOnChar, h]
      by_cases hxc : x = c <;> simp [hxc]

theorem splitOnChar_cons (c x : Char) (xs : List Char) :
    splitOnChar c (x :: xs) =
      if x = c then [] :: splitOnChar c xs else consHead x (splitOnChar c xs) := by
  cases h : splitOnChar c xs with
  | nil => exact absurd h (splitOnChar_ne_nil c xs)
  | cons p ps =>
    simp only [splitOnChar, h, consHead]

theorem splitOnChar_of_not_mem {c : Char} {l : List Char} (h : c ∉ l) :
    splitOnChar c l = [l] := by
  induction l with
  | nil => rfl
  | cons x xs ih =>
    rw [splitOnChar_cons,
      if_neg (fun hxc => h (List.mem_cons.mpr (Or.inl hxc.symm))),
      ih (fun hc => h (List.mem_cons_of_mem _ hc))]
    rfl

theorem splitOnChar_append {c : Char} {a : List Char} (b : List Char) (h : c ∉ a) :
    splitOnChar c (a ++ c :: b) = a :: splitOnChar c b := by
  induction a with
  | nil => simp [splitOnChar_cons]
  | cons x a' ih =>
    have hxc : x ≠ c := fun hxc => h (List.mem_cons.mpr (Or.inl hxc.symm))
    rw [List.cons_append, splitOnChar_cons, if_neg hxc,
      ih (fun hc => h (List.mem_cons_of_mem _ hc))]
    rfl

theorem mem_of_mem_splitOnChar {c x : Char} {l : List Char} :
    ∀ {p : List Char}, p ∈ splitOnChar c l → x ∈ p → x ∈ l := by
  induction l with
  | nil =>
    intro p hp hx
    simp [splitOnChar] at hp
    subst hp
    cases hx
  | cons y ys ih =>
    intro p hp hx
    rw [splitOnChar_cons] at hp
    by_cases hyc : y = c
    · rw [if_pos hyc] at hp
      rcases List.mem_cons.mp hp with rfl | hp'
      · cases hx
      · exact List.mem_cons_of_mem _ (ih hp' hx)
    · rw [if_neg hyc] at hp
      cases hsp : splitOnChar c ys with
      | nil => exact absurd hsp (splitOnChar_ne_nil c ys)
      | cons q qs =>
        rw [hsp] at hp
        simp only [consHead] at hp
        rcases List.mem_cons.mp hp with rfl | hp'
        · rcases List.mem_cons.mp hx with rfl | hx'
          · exact List.mem_cons_self _ _
          · exact List.mem_cons_of_mem _ (ih (hsp ▸ List.mem_cons_self q qs) hx')
        · exact List.mem_cons_of_mem _ (ih (hsp ▸ List.mem_cons_of_mem _ hp') hx)

theorem mem_splitOnChar {c x : Char} {l : List Char} (hx : x ∈ l) :
    x = c ∨ ∃ p ∈ splitOnChar c l, x ∈ p := by
  induction l with
  | nil => cases hx
  | cons y ys ih =>
    rw [splitOnChar_cons]
    by_cases hyc : y = c
    · rw [if_pos hyc]
      rcases List.mem_cons.mp hx with rfl | hx'
      · exact Or.inl hyc
      · rcases ih hx' with h | ⟨q, hq, hxq⟩
        · exact Or.inl h
        · exact Or.inr ⟨q, List.mem_cons_of_mem _ hq, hxq⟩
    · rw [if_neg hyc]
      cases hsp : splitOnChar c ys with
      | nil => exact absurd hsp (splitOnChar_ne_nil c ys)
      | cons p ps =>
        simp only [consHead]
        rcases List.mem_cons.mp hx with rfl | hx'
        · exact Or.inr ⟨x :: p, List.mem_cons_self _ _, List.mem_cons_self _ _⟩
        · rcases ih hx' with h | ⟨q, hq, hxq⟩
          · exact Or.inl h
          · rw [hsp] at hq
            rcases List.mem_cons.mp hq with rfl | hq'
            · exact Or.inr ⟨y :: q, List.mem_cons_self _ _, List.mem_cons_of_mem _ hxq⟩
            · exact Or.inr ⟨q, List.mem_cons_of_mem _ hq', hxq⟩

theorem not_mem_of_mem_splitOnChar {c : Char} {l p : List Char}
    (hp : p ∈ splitOnChar c l) : c ∉ p := by
  induction l generalizing p with
  | nil =>
    simp [splitOnChar] at hp
    subst hp
    simp
  | cons y ys ih =>
    rw [splitOnChar_cons] at hp
    by_cases hyc : y = c
    · rw [if_pos hyc] at hp
      rcases List.mem_cons.mp hp with rfl | hp'
      · simp
      · exact ih hp'
    · rw [if_neg hyc] at hp
      cases hsp : splitOnChar c ys with
      | nil => exact absurd hsp (splitOnChar_ne_nil c ys)
      | cons q qs =>
        rw [hsp] at hp
        simp only [consHead] at hp
        rcases List.mem_cons.mp hp with rfl | hp'
        · intro hc
          rcases List.mem_cons.mp hc with rfl | hc'
          · exact hyc rfl
          · exact ih (hsp ▸ List.mem_cons_self q qs) hc'
        · exact ih (hsp ▸ List.mem_cons_of_mem _ hp')

theorem splitOnChar_singleton {c : Char} {l q : List Char}
    (h : splitOnChar c l = [q]) : l = q := by
  induction l generalizing q with
  | nil =>
    rw [show splitOnChar c [] = [[]] from rfl] at h
    injection h
  | cons x xs ih =>
    rw [splitOnChar_cons] at h
    by_cases hxc : x = c
    · rw [if_pos hxc] at h
      injection h with _ h2
      exact absurd h2 (splitOnChar_ne_nil c xs)
    · rw [if_neg hxc] at h
      cases hsp : splitOnChar c xs with
      | nil => exact absurd hsp (splitOnChar_ne_nil c xs)
      | cons p ps =>
        rw [hsp] at h
        simp only [consHead] at h
        injection h with h1 h2
        subst h2
        rw [ih hsp]
        exact h1

theorem splitOnChar_eq_pair {c : Char} {l d i : List Char}
    (h : splitOnChar c l = [d, i]) : l = d ++ c :: i := by
  induction l generalizing d with
  | nil =>
    rw [show splitOnChar c [] = [[]] from rfl] at h
    injection h with _ h2
    exact absurd h2 (by simp)
  | cons x xs ih =>
    rw [splitOnChar_cons] at h
    by_cases hxc : x = c
    · rw [if_pos hxc] at h
      injection h with h1 h2
      subst hxc
      rw [splitOnChar_singleton h2, ← h1]
      rfl
    · rw [if_neg hxc] at h
      cases hsp : splitOnChar c xs with
      | nil => exact absurd hsp (splitOnChar_ne_nil c xs)
      | cons p ps =>
        rw [hsp] at h
        simp only [consHead] at h
        injection h with h1 h2
        subst h2
        rw [ih hsp, ← h1]
        rfl

theorem splitOnChar_length (c : Char) (l : List Char) :
    (splitOnChar c l).length = l.count c + 1 := by
  induction l with
  | nil => rfl
  | cons x xs ih =>
    rw [splitOnChar_cons]
    by_cases hxc : x = c
    · subst hxc
      simp [List.count_cons, ih]
    · cases hsp : splitOnChar c xs with
      | nil => exact absurd hsp (splitOnChar_ne_nil c xs)
      | cons p ps =>
        rw [if_neg hxc]
        rw [hsp] at ih
        simp only [consHead, List.length_cons] at ih ⊢
        simp only [List.count_cons]
        have hcx : (x == c) = false := by simp [hxc]
        rw [hcx]
        simp
        omega

theorem splitOnChar_count_one {c : Char} {l : List Char} (h : l.count c = 1) :
    ∃ d i, splitOnChar c l = [d, i] := by
  have hl := splitOnChar_length c l
  rw [h] at hl
  cases hsp : splitOnChar c l with
  | nil => exact absurd hsp (splitOnChar_ne_nil c l)
  | cons d rest =>
    cases rest with
    | nil => rw [hsp] at hl; simp at hl
    | cons i rest2 =>
      cases rest2 with
      | nil => exact ⟨d, i, rfl⟩
      | cons z zs => rw [hsp] at hl; simp at hl

/-! ## Supporting lemmas: `pyStrip` -/

theorem dropWhile_cons_false {p : Char → Bool} {x : Char} {xs : List Char}
    (hx : p x = false) : (x :: xs).dropWhile p = x :: xs := by
  simp [List.dropWhile_cons, hx]

theorem dropWhile_cons_true {p : Char → Bool} {x : Char} {xs : List Char}
    (hx : p x = true) : (x :: xs).dropWhile p = xs.dropWhile p := by
  simp [List.dropWhile_cons, hx]

theorem dropWhile_of_forall_false {p : Char → Bool} {l : List Char}
    (h : ∀ c ∈ l, p c = false) : l.dropWhile p = l := by
  cases l with
  | nil => rfl
  | cons x xs => exact dropWhile_cons_false (h x (List.mem_cons_self x xs))

theorem pyStrip_of_forall_false {p : Char → Bool} {l : List Char}
    (h : ∀ c ∈ l, p c = false) : pyStrip p l = l := by
  unfold pyStrip
  rw [dropWhile_of_forall_false h,
    dropWhile_of_forall_false (fun c hc => h c (List.mem_reverse.mp hc)),
    List.reverse_reverse]

theorem pyStrip_of_ends {p : Char → Bool} {l : List Char}
    (hh : ∀ c, l.head? = some c → p c = false)
    (hl : ∀ c, l.getLast? = some c → p c = false) : pyStrip p l = l := by
  cases l with
  | nil => rfl
  | cons x xs =>
    unfold pyStrip
    rw [dropWhile_cons_false (hh x rfl)]
    cases hrev : (x :: xs).reverse with
    | nil => simp at hrev
    | cons y ys =>
      have hy : (x :: xs).getLast? = some y := by
        rw [← List.head?_reverse, hrev]
        rfl
      rw [dropWhile_cons_false (hl y hy), ← hrev, List.reverse_reverse]

theorem pyStrip_wrap {p : Char → Bool} {q : Char} {mid : List Char}
    (hq : p q = true)
    (hh : ∀ c, mid.head? = some c → p c = false)
    (hl : ∀ c, mid.getLast? = some c → p c = false) :
    pyStrip p (q :: (mid ++ [q])) = mid := by
  cases mid with
  | nil => simp [pyStrip, List.dropWhile, hq]
  | cons x xs =>
    unfold pyStrip
    rw [dropWhile_cons_true hq,
      show (x :: xs) ++ [q] = x :: (xs ++ [q]) from rfl,
      dropWhile_cons_false (hh x rfl)]
    have hrw : (x :: (xs ++ [q])).reverse = q :: (x :: xs).reverse := by
      simp
    rw [hrw, dropWhile_cons_true hq]
    cases hrev : (x :: xs).reverse with
    | nil => simp at hrev
    | cons y ys =>
      have hy : (x :: xs).getLast? = some y := by
        rw [← List.head?_reverse, hrev]
        rfl
      rw [dropWhile_cons_false (hl y hy), ← hrev, List.reverse_reverse]

/-! ## Supporting lemmas: character classes and validators -/

theorem goodChar_props {c : Char} (h : goodChar c = true) :
    pyWs c = false ∧ c ≠ '\'' ∧ c ≠ '"' ∧ c ≠ '/' ∧ c ≠ '=' ∧ c ≠ '\n' := by
  refine ⟨?_, ?_, ?_, ?_, ?_, ?_⟩
  · by_contra hws
    have hws' : pyWs c = true := by
      cases hcc : pyWs c
      · exact absurd hcc hws
      · rfl
    have hc : ((((c = ' ' ∨ c = '\t') ∨ c = '\n') ∨ c = '\r') ∨ c = '\x0b') ∨ c = '\x0c' := by
      simpa [pyWs] using hws'
    rcases hc with ((((rfl | rfl) | rfl) | rfl) | rfl) | rfl <;> revert h <;> decide
  · rintro rfl; revert h; decide
  · rintro rfl; revert h; decide
  · rintro rfl; revert h; decide
  · rintro rfl; revert h; decide
  · rintro rfl; revert h; decide

theorem isDomChar_goodChar {c : Char} (h : isDomChar c = true) : goodChar c = true := by
  simp [goodChar, h]

theorem isDigit_goodChar {c : Char} (h : c.isDigit = true) : goodChar c = true := by
  simp [goodChar, h]

theorem dot_goodChar : goodChar '.' = true := by decide

theorem validate_domain_chars {d : String} (hd : validate_domain d = true) :
    ∀ c ∈ d.toList, goodChar c = true := by
  intro c hc
  rcases mem_splitOnChar (c := '.') hc with rfl | ⟨p, hp, hcp⟩
  · exact dot_goodChar
  · rw [validate_domain, reDomainMatch] at hd
    have h1 := List.all_eq_true.mp hd p hp
    have h2 : p.all isDomChar = true := by
      simp only [Bool.and_eq_true] at h1
      exact h1.2
    exact isDomChar_goodChar (List.all_eq_true.mp h2 c hcp)

theorem validate_ip_re {i : String} (hi : validate_ip i = true) :
    reIPMatch i.toList = true := by
  by_cases h : reIPMatch i.toList = true
  · exact h
  · have h' : reIPMatch i.toList = false := by
      cases hcc : reIPMatch i.toList
      · rfl
      · exact absurd hcc h
    rw [validate_ip, h'] at hi
    simp at hi

theorem validate_ip_groups {i : String} (hi : validate_ip i = true) :
    (splitOnChar '.' i.toList).length = 4 ∧
      ∀ p ∈ splitOnChar '.' i.toList,
        (1 ≤ p.length ∧ p.length ≤ 3) ∧ (∀ c ∈ p, c.isDigit = true) ∧
          toNatDigits p ≤ 255 := by
  have hre := validate_ip_re hi
  have hb : (splitOnChar '.' i.toList).all
      (fun p => decide (toNatDigits p ≤ 255)) = true := by
    rw [validate_ip, hre] at hi
    simpa using hi
  rw [reIPMatch] at hre
  simp only [Bool.and_eq_true, beq_iff_eq] at hre
  obtain ⟨h4, hall⟩ := hre
  refine ⟨h4, fun p hp => ?_⟩
  have h1 := List.all_eq_true.mp hall p hp
  simp only [Bool.and_eq_true, decide_eq_true_eq] at h1
  obtain ⟨⟨hlen1, hlen3⟩, hdig⟩ := h1
  have h2 := List.all_eq_true.mp hb p hp
  simp only [decide_eq_true_eq] at h2
  exact ⟨⟨hlen1, hlen3⟩, List.all_eq_true.mp hdig, h2⟩

theorem validate_ip_chars {i : String} (hi : validate_ip i = true) :
    ∀ c ∈ i.toList, goodChar c = true := by
  intro c hc
  rcases mem_splitOnChar (c := '.') hc with rfl | ⟨p, hp, hcp⟩
  · exact dot_goodChar
  · exact isDigit_goodChar (((validate_ip_groups hi).2 p hp).2.1 c hcp)

theorem validate_domain_toList_ne {d : String} (hd : validate_domain d = true) :
    d.toList ≠ [] := by
  intro h
  rw [validate_domain, h] at hd
  exact absurd hd (by decide)

theorem validate_domain_ne {d : String} (hd : validate_domain d = true) : d ≠ "" := by
  intro h
  exact validate_domain_toList_ne hd (by rw [h]; rfl)

theorem validate_ip_toList_ne {i : String} (hi : validate_ip i = true) :
    i.toList ≠ [] := by
  intro h
  have := (validate_ip_groups hi).1
  rw [h] at this
  simp [splitOnChar] at this

theorem validate_ip_ne {i : String} (hi : validate_ip i = true) : i ≠ "" := by
  intro h
  exact validate_ip_toList_ne hi (by rw [h]; rfl)

theorem string_mk_toList (s : String) : String.mk s.toList = s := rfl

theorem pyStripStr_of_goodChars {s : String} (h : ∀ c ∈ s.toList, goodChar c = true) :
    pyStripStr s = s := by
  rw [pyStripStr, pyStrip_of_forall_false (fun c hc => (goodChar_props (h c hc)).1),
    string_mk_toList]

theorem pyStripStr_validated_domain {d : String} (hd : validate_domain d = true) :
    pyStripStr d = d :=
  pyStripStr_of_goodChars (validate_domain_chars hd)

theorem pyStripStr_validated_ip {i : String} (hi : validate_ip i = true) :
    pyStripStr i = i :=
  pyStripStr_of_goodChars (validate_ip_chars hi)

/-! ## Supporting lemmas: handlers -/

theorem getRecords_ok {w : World} (hshow : w.showFail = none) :
    get_records w = ((some (parseDump (renderDump w.store)), none), w, [.uciShow]) := by
  simp [get_records, runCmd, hshow]

theorem getRecords_fail {w : World} {e : String} (hshow : w.showFail = some e) :
    get_records w = ((none, some e), w, [.uciShow]) := by
  simp [get_records, runCmd, hshow]

theorem pyStripStr_empty : pyStripStr "" = "" := rfl

/-! ## Claim C7 -/

/-- C7 (corrected): `validate_ip` requires four dot-separated groups, each
of one to three digits with integer value in [0, 255].  Contrary to the
claim, the regex `\d{1,3}` does enforce the 1-3 digit width, so no accepted
string has a group of any other width; in particular the claim's example of
a four-digit group with leading zeros, as in "0001.1.1.1", is rejected. -/
theorem validate_ip_group_width {s : String} (h : validate_ip s = true) :
    ((splitOnChar '.' s.toList).length = 4 ∧
      ∀ p ∈ splitOnChar '.' s.toList,
        (1 ≤ p.length ∧ p.length ≤ 3) ∧ (∀ c ∈ p, c.isDigit = true) ∧
          toNatDigits p ≤ 255) ∧
    validate_ip "0001.1.1.1" = false := by
  refine ⟨validate_ip_groups h, by decide⟩

/-- Witness for C7: `validate_ip` accepts "192.168.1.1", and the group-width
property holds there. -/
theorem validate_ip_group_width_witness :
    (splitOnChar '.' ("192.168.1.1").toList).length = 4 :=
  (validate_ip_group_width (s := "192.168.1.1") (by decide)).1.1

/-- Counterexample for C7: the claim asserts the existence of a string
accepted by `validate_ip` in which some dot-separated group has a digit
count outside 1-3; no such string exists. -/
theorem validate_ip_group_width_cex :
    ¬ ∃ s : String, validate_ip s = true ∧
        ∃ p ∈ splitOnChar '.' s.toList, p.length < 1 ∨ 3 < p.length := by
  rintro ⟨s, hv, p, hp, hw⟩
  obtain ⟨-, hall⟩ := validate_ip_groups hv
  obtain ⟨⟨h1, h2⟩, -⟩ := hall p hp
  omega

/-! ## Claim C4 -/

/-- C4 (confirmed): for every request to a path other than `/health` whose
`X-API-Key` header is missing or differs from the configured secret, the
response is HTTP 401 and no external command at all is executed (empty
trace), leaving the store unchanged. -/
theorem auth_gate_401 (cfg : String) (w : World) (req : Request)
    (hp : req.path ≠ "/health") (hk : req.apiKey ≠ some cfg) :
    app cfg w req = ⟨.unauthorized, w, []⟩ ∧
      (app cfg w req).resp.statusCode = 401 := by
  have h : app cfg w req = ⟨.unauthorized, w, []⟩ := by
    rw [app, if_pos ⟨hp, hk⟩]
  refine ⟨h, ?_⟩
  rw [h]
  rfl

/-- Witness for C4: a `POST /dns` with no `X-API-Key` header is rejected
with 401, an empty command trace and an unchanged world. -/
theorem auth_gate_401_witness :
    app "secret" ⟨[], none, none, false⟩ ⟨"/dns", "POST", none, ⟨none, none, none⟩⟩ =
      ⟨.unauthorized, ⟨[], none, none, false⟩, []⟩ :=
  (auth_gate_401 "secret" ⟨[], none, none, false⟩
    ⟨"/dns", "POST", none, ⟨none, none, none⟩⟩ (by decide) (by decide)).1

/-! ## Claim C5 -/

/-- C5 (confirmed): a `DELETE /dns` with a valid domain (and optional ip
filter) that matches no record in the current dump returns HTTP 404
`{"error": "not found"}`, issues no `del_list` command (only the read),
and leaves the store unchanged. -/
theorem delete_no_match_404 (w : World) (d ipf : String)
    (hshow : w.showFail = none) (hd : validate_domain d = true)
    (hipf : pyStripStr ipf = ipf)
    (hm : (parseDump (renderDump w.store)).filter
        (fun r => r.domain == d && (ipf == "" || r.ip == ipf)) = []) :
    delete_dns w ⟨some d, some ipf, none⟩ = ⟨.err 404 "not found", w, [.uciShow]⟩ ∧
      (delete_dns w ⟨some d, some ipf, none⟩).resp.statusCode = 404 ∧
      (delete_dns w ⟨some d, some ipf, none⟩).world.store = w.store ∧
      ∀ e, Cmd.delList e ∉ (delete_dns w ⟨some d, some ipf, none⟩).trace := by
  have hd' := pyStripStr_validated_domain hd
  have hdne := validate_domain_ne hd
  have heq : delete_dns w ⟨some d, some ipf, none⟩ = ⟨.err 404 "not found", w, [.uciShow]⟩ := by
    rw [delete_dns]
    simp only [Option.getD_some, hd', hipf, hdne, if_false, getRecords_ok hshow, hd,
      Bool.not_true, Bool.false_eq_true, if_neg hdne]
    simp [hm]
  refine ⟨heq, ?_, ?_, ?_⟩
  · rw [heq]
    rfl
  · rw [heq]
  · rw [heq]
    intro e
    simp

/-- Witness for C5: deleting `z.z` from a store holding only `/a.b/1.2.3.4`
yields 404 with no deletion command. -/
theorem delete_no_match_404_witness :
    delete_dns ⟨["/a.b/1.2.3.4"], none, none, false⟩ ⟨some "z.z", none, none⟩ =
      ⟨.err 404 "not found", ⟨["/a.b/1.2.3.4"], none, none, false⟩, [.uciShow]⟩ :=
  (delete_no_match_404 ⟨["/a.b/1.2.3.4"], none, none, false⟩ "z.z" ""
    rfl (by decide) rfl (by decide)).1

/-! ## Claim C9 -/

/-- C9 (confirmed): when the dump command fails, `GET /dns` returns the
JSON 500 `{"error": err}` body, but `POST`, `PUT` and `DELETE` raise an
uncaught `TypeError` (iterating/filtering `None`) instead of returning a
JSON error body, and no mutation command is issued (the trace holds only
the read). -/
theorem dump_failure_crash (w : World) (e d i : String)
    (hshow : w.showFail = some e)
    (hd : validate_domain d = true) (hi : validate_ip i = true) :
    add_dns w ⟨some d, some i, none⟩ = ⟨.crash "TypeError", w, [.uciShow]⟩ ∧
      update_dns w ⟨some d, none, some i⟩ = ⟨.crash "TypeError", w, [.uciShow]⟩ ∧
      delete_dns w ⟨some d, none, none⟩ = ⟨.crash "TypeError", w, [.uciShow]⟩ ∧
      list_dns w = ⟨.err 500 e, w, [.uciShow]⟩ := by
  have hd' := pyStripStr_validated_domain hd
  have hi' := pyStripStr_validated_ip hi
  have hdne := validate_domain_ne hd
  have hine := validate_ip_ne hi
  refine ⟨?_, ?_, ?_, ?_⟩
  · rw [add_dns]
    simp [Option.getD_some, hd', hi', hdne, hine, hd, hi, getRecords_fail hshow]
  · rw [update_dns]
    simp [Option.getD_some, hd', hi', hdne, hine, hd, hi, pyStripStr_empty,
      getRecords_fail hshow]
  · rw [delete_dns]
    simp [Option.getD_some, hd', hdne, hd, pyStripStr_empty, getRecords_fail hshow]
  · rw [list_dns]
    simp [getRecords_fail hshow]

/-- Witness for C9: with the dump command failing, a `POST /dns` of
`(a.b, 1.2.3.4)` crashes with `TypeError` after issuing only the read. -/
theorem dump_failure_crash_witness :
    add_dns ⟨[], some "no uci", none, false⟩ ⟨some "a.b", some "1.2.3.4", none⟩ =
      ⟨.crash "TypeError", ⟨[], some "no uci", none, false⟩, [.uciShow]⟩ :=
  (dump_failure_crash ⟨[], some "no uci", none, false⟩ "no uci" "a.b" "1.2.3.4"
    rfl (by decide) (by decide)).1

/-! ## Supporting lemmas: the delete loop and the mutating handlers -/

theorem delAll_trace (w : World) (rs : List Record) :
    (delAll w rs).2 = rs.map (fun r => Cmd.delList (entryFor r.domain r.ip)) := by
  induction rs generalizing w with
  | nil => rfl
  | cons r rest ih =>
    rw [delAll]
    cases hf : w.delFail <;> simp [runCmd, hf, ih]

theorem delAll_world (w : World) (rs : List Record) :
    (delAll w rs).1.showFail = w.showFail ∧ (delAll w rs).1.addFail = w.addFail ∧
      (delAll w rs).1.delFail = w.delFail := by
  induction rs generalizing w with
  | nil => exact ⟨rfl, rfl, rfl⟩
  | cons r rest ih =>
    rw [delAll]
    cases hf : w.delFail
    · simp only [runCmd, hf, Bool.false_eq_true, if_false]
      obtain ⟨a, b, c⟩ := ih { store := w.store.filter (· ≠ entryFor r.domain r.ip),
                               showFail := w.showFail, addFail := w.addFail, delFail := false }
      exact ⟨a, b, c⟩
    · simp only [runCmd, hf, if_true]
      obtain ⟨a, b, c⟩ := ih w
      exact ⟨a, b, by rw [c]; exact hf⟩

theorem delAll_store {w : World} (rs : List Record) (hf : w.delFail = false) :
    (delAll w rs).1.store =
      rs.foldl (fun st r => st.filter (· ≠ entryFor r.domain r.ip)) w.store := by
  induction rs generalizing w with
  | nil => rfl
  | cons r rest ih =>
    rw [delAll]
    simp only [runCmd, hf, Bool.false_eq_true, if_false, List.foldl_cons]
    exact ih rfl

theorem update_dns_matched {w : World} {d ipf ni : String}
    (hshow : w.showFail = none) (hd : validate_domain d = true)
    (hni : validate_ip ni = true) (hipf : pyStripStr ipf = ipf)
    (hm : (parseDump (renderDump w.store)).filter
        (fun r => r.domain == d && (ipf == "" || r.ip == ipf)) ≠ []) :
    (update_dns w ⟨some d, some ipf, some ni⟩).resp = .updated d ni ∧
    (update_dns w ⟨some d, some ipf, some ni⟩).trace =
      .uciShow :: (((parseDump (renderDump w.store)).filter
        (fun r => r.domain == d && (ipf == "" || r.ip == ipf))).map
          (fun r => Cmd.delList (entryFor r.domain r.ip)) ++
        [.addList (entryFor d ni), .commit, .reload]) := by
  have hd' := pyStripStr_validated_domain hd
  have hni' := pyStripStr_validated_ip hni
  have hdne := validate_domain_ne hd
  have hnine := validate_ip_ne hni
  have hemp : ((parseDump (renderDump w.store)).filter
      (fun r => r.domain == d && (ipf == "" || r.ip == ipf))).isEmpty = false := by
    cases hms : (parseDump (renderDump w.store)).filter
        (fun r => r.domain == d && (ipf == "" || r.ip == ipf)) with
    | nil => exact absurd hms hm
    | cons a as => rfl
  constructor <;>
    simp [update_dns, hd', hni', hipf, hdne, hnine, hd, hni,
      getRecords_ok hshow, hemp, delAll_trace]

theorem update_dns_unmatched {w : World} {d ipf ni : String}
    (hshow : w.showFail = none) (hd : validate_domain d = true)
    (hni : validate_ip ni = true) (hipf : pyStripStr ipf = ipf)
    (hm : (parseDump (renderDump w.store)).filter
        (fun r => r.domain == d && (ipf == "" || r.ip == ipf)) = []) :
    update_dns w ⟨some d, some ipf, some ni⟩ = ⟨.err 404 "not found", w, [.uciShow]⟩ := by
  have hd' := pyStripStr_validated_domain hd
  have hni' := pyStripStr_validated_ip hni
  have hdne := validate_domain_ne hd
  have hnine := validate_ip_ne hni
  simp [update_dns, hd', hni', hipf, hdne, hnine, hd, hni, getRecords_ok hshow, hm]

theorem delete_dns_matched {w : World} {d ipf : String}
    (hshow : w.showFail = none) (hd : validate_domain d = true)
    (hipf : pyStripStr ipf = ipf)
    (hm : (parseDump (renderDump w.store)).filter
        (fun r => r.domain == d && (ipf == "" || r.ip == ipf)) ≠ []) :
    (delete_dns w ⟨some d, some ipf, none⟩).resp = .deleted d ∧
    (delete_dns w ⟨some d, some ipf, none⟩).trace =
      .uciShow :: (((parseDump (renderDump w.store)).filter
        (fun r => r.domain == d && (ipf == "" || r.ip == ipf))).map
          (fun r => Cmd.delList (entryFor r.domain r.ip)) ++ [.commit, .reload]) := by
  have hd' := pyStripStr_validated_domain hd
  have hdne := validate_domain_ne hd
  have hemp : ((parseDump (renderDump w.store)).filter
      (fun r => r.domain == d && (ipf == "" || r.ip == ipf))).isEmpty = false := by
    cases hms : (parseDump (renderDump w.store)).filter
        (fun r => r.domain == d && (ipf == "" || r.ip == ipf)) with
    | nil => exact absurd hms hm
    | cons a as => rfl
  constructor <;>
    simp [delete_dns, hd', hipf, hdne, hd, getRecords_ok hshow, hemp, delAll_trace]

theorem add_dns_addfail {w : World} {d i e : String}
    (hshow : w.showFail = none) (hd : validate_domain d = true)
    (hi : validate_ip i = true) (haf : w.addFail = some e)
    (hnm : (parseDump (renderDump w.store)).any
        (fun r => r.domain == d && r.ip == i) = false) :
    add_dns w ⟨some d, some i, none⟩ =
      ⟨.errDetail 500 "add failed" e, w, [.uciShow, .addList (entryFor d i)]⟩ := by
  have hd' := pyStripStr_validated_domain hd
  have hi' := pyStripStr_validated_ip hi
  have hdne := validate_domain_ne hd
  have hine := validate_ip_ne hi
  simp [add_dns, hd', hi', hdne, hine, hd, hi, getRecords_ok hshow, hnm, runCmd, haf]

/-! ## Claim C1 -/

/-- C1 (corrected): in the mutation sequence only the POST `add_list` exit
code is checked: a non-zero exit there yields the 500 "add failed" response
before `commit`/`reload`.  Contrary to the claim, the exit code of the
final replacement `add_list` of a PUT is not checked either - the handler
still runs `commit`/`reload` and returns `{"status":"updated"}` (HTTP 200).
`del_list` exit codes are never checked: with any value of the del-failure
switch, DELETE still runs `commit`/`reload` and returns
`{"status":"deleted"}`. -/
theorem mutation_exit_code_checks (w : World) (d i ni ipf e : String)
    (hshow : w.showFail = none) (hd : validate_domain d = true)
    (hi : validate_ip i = true) (hni : validate_ip ni = true)
    (hipf : pyStripStr ipf = ipf) (haf : w.addFail = some e) :
    ((parseDump (renderDump w.store)).any
        (fun r => r.domain == d && r.ip == i) = false →
      add_dns w ⟨some d, some i, none⟩ =
        ⟨.errDetail 500 "add failed" e, w, [.uciShow, .addList (entryFor d i)]⟩ ∧
      Cmd.commit ∉ (add_dns w ⟨some d, some i, none⟩).trace ∧
      Cmd.reload ∉ (add_dns w ⟨some d, some i, none⟩).trace) ∧
    ((parseDump (renderDump w.store)).filter
        (fun r => r.domain == d && (ipf == "" || r.ip == ipf)) ≠ [] →
      (update_dns w ⟨some d, some ipf, some ni⟩).resp = .updated d ni ∧
      (update_dns w ⟨some d, some ipf, some ni⟩).resp.statusCode = 200 ∧
      Cmd.commit ∈ (update_dns w ⟨some d, some ipf, some ni⟩).trace ∧
      Cmd.reload ∈ (update_dns w ⟨some d, some ipf, some ni⟩).trace) ∧
    (∀ bfail, (parseDump (renderDump w.store)).filter
        (fun r => r.domain == d && (ipf == "" || r.ip == ipf)) ≠ [] →
      (delete_dns { w with delFail := bfail } ⟨some d, some ipf, none⟩).resp = .deleted d ∧
      Cmd.commit ∈ (delete_dns { w with delFail := bfail } ⟨some d, some ipf, none⟩).trace ∧
      Cmd.reload ∈ (delete_dns { w with delFail := bfail } ⟨some d, some ipf, none⟩).trace) := by
  refine ⟨fun hnm => ?_, fun hm => ?_, fun bfail hm => ?_⟩
  · have h := add_dns_addfail hshow hd hi haf hnm
    refine ⟨h, ?_, ?_⟩ <;> rw [h] <;> simp
  · obtain ⟨h1, h2⟩ := update_dns_matched hshow hd hni hipf hm
    refine ⟨h1, ?_, ?_, ?_⟩
    · rw [h1]; rfl
    · rw [h2]; simp
    · rw [h2]; simp
  · obtain ⟨h1, h2⟩ := delete_dns_matched (w := { w with delFail := bfail })
      hshow hd hipf hm
    refine ⟨h1, ?_, ?_⟩
    · rw [h2]; simp
    · rw [h2]; simp

/-- Witness for C1: with the add command failing, POST aborts with 500
while PUT still reports "updated" and DELETE (with failing deletes)
still reports "deleted". -/
theorem mutation_exit_code_checks_witness :
    add_dns ⟨["/a.b/1.2.3.4"], none, some "boom", false⟩
        ⟨some "a.b", some "9.9.9.9", none⟩ =
      ⟨.errDetail 500 "add failed" "boom", ⟨["/a.b/1.2.3.4"], none, some "boom", false⟩,
        [.uciShow, .addList (entryFor "a.b" "9.9.9.9")]⟩ ∧
    (update_dns ⟨["/a.b/1.2.3.4"], none, some "boom", false⟩
        ⟨some "a.b", some "", some "5.6.7.8"⟩).resp = .updated "a.b" "5.6.7.8" ∧
    (delete_dns ⟨["/a.b/1.2.3.4"], none, some "boom", true⟩
        ⟨some "a.b", some "", none⟩).resp = .deleted "a.b" := by
  obtain ⟨h1, h2, h3⟩ := mutation_exit_code_checks
    ⟨["/a.b/1.2.3.4"], none, some "boom", false⟩ "a.b" "9.9.9.9" "5.6.7.8" "" "boom"
    rfl (by decide) (by decide) (by decide) rfl rfl
  exact ⟨(h1 (by decide)).1, (h2 (by decide)).1, (h3 true (by decide)).1⟩

/-! ## Supporting lemmas: the entry parser -/

theorem mem_of_isPrefixOf {p l : List Char} (h : p.isPrefixOf l = true) {c : Char}
    (hc : c ∈ p) : c ∈ l := by
  induction p generalizing l with
  | nil => cases hc
  | cons x xs ih =>
    cases l with
    | nil => simp [List.isPrefixOf] at h
    | cons y ys =>
      simp only [List.isPrefixOf, Bool.and_eq_true, beq_iff_eq] at h
      obtain ⟨rfl, h2⟩ := h
      rcases List.mem_cons.mp hc with rfl | hc'
      · exact List.mem_cons_self _ _
      · exact List.mem_cons_of_mem _ (ih h2 hc')

theorem containsSeq_mem {pat l : List Char} (h : containsSeq pat l = true) {c : Char}
    (hc : c ∈ pat) : c ∈ l := by
  induction l with
  | nil =>
    rw [containsSeq] at h
    rw [List.isEmpty_iff.mp h] at hc
    cases hc
  | cons x xs ih =>
    rw [containsSeq] at h
    rcases Bool.or_eq_true_iff.mp h with hpre | hrest
    · exact mem_of_isPrefixOf hpre hc
    · exact List.mem_cons_of_mem _ (ih hrest)

theorem splitFirst_some_of_mem {c : Char} {l : List Char} (h : c ∈ l) :
    ∃ k v, splitFirst c l = some (k, v) := by
  induction l with
  | nil => cases h
  | cons x xs ih =>
    rw [splitFirst]
    by_cases hxc : x = c
    · rw [if_pos hxc]
      exact ⟨[], xs, rfl⟩
    · rw [if_neg hxc]
      have hxs : c ∈ xs := by
        rcases List.mem_cons.mp h with rfl | h'
        · exact absurd rfl hxc
        · exact h'
      obtain ⟨k, v, hkv⟩ := ih hxs
      rw [hkv]
      exact ⟨x :: k, v, rfl⟩

theorem lineRecords_marker {line k v : List Char} (hm : containsSeq addrPat line = true)
    (hs : splitFirst '=' line = some (k, v)) :
    lineRecords line = (extractEntries (cleanVal v)).filterMap parseEntry := by
  rw [lineRecords, if_pos hm, hs]

theorem parseEntry_some_iff (entry : List Char) (r : Record) :
    parseEntry entry = some r ↔
      ∃ d i, stripLead entry = d ++ '/' :: i ∧ '/' ∉ d ∧ '/' ∉ i ∧
        d ≠ [] ∧ i ≠ [] ∧ '.' ∈ d ∧
        r = ⟨String.mk (pyStrip pyWs d), String.mk (pyStrip pyWs i)⟩ := by
  constructor
  · intro h
    rw [parseEntry] at h
    by_cases hc : (stripLead entry).count '/' = 1
    · rw [if_pos hc] at h
      obtain ⟨d, i, hsp⟩ := splitOnChar_count_one hc
      rw [hsp] at h
      dsimp only at h
      by_cases hchecks : d ≠ [] ∧ i ≠ [] ∧ '.' ∈ d
      · rw [if_pos hchecks] at h
        injection h with h'
        exact ⟨d, i, splitOnChar_eq_pair hsp,
          not_mem_of_mem_splitOnChar (by rw [hsp]; exact List.mem_cons_self _ _),
          not_mem_of_mem_splitOnChar
            (by rw [hsp]; exact List.mem_cons_of_mem _ (List.mem_cons_self _ _)),
          hchecks.1, hchecks.2.1, hchecks.2.2, h'.symm⟩
      · rw [if_neg hchecks] at h
        cases h
    · rw [if_neg hc] at h
      cases h
  · rintro ⟨d, i, hdec, hd, hi, hdne, hine, hdot, rfl⟩
    rw [parseEntry, hdec]
    have hcnt : (d ++ '/' :: i).count '/' = 1 := by
      rw [List.count_append, List.count_eq_zero.mpr hd]
      simp [List.count_cons, List.count_eq_zero.mpr hi]
    rw [if_pos hcnt, splitOnChar_append i hd, splitOnChar_of_not_mem hi]
    dsimp only
    rw [if_pos ⟨hdne, hine, hdot⟩]

/-! ## Claim C3 -/

/-- C3 (confirmed): for every dump line whose key contains the `".address="`
marker, the split on the first `=` succeeds and the parser emits exactly the
records obtained by parsing each extracted entry, omitting every failing
entry (`filterMap`); an entry yields a record precisely when, after
stripping one leading `/`, it contains exactly one `/` splitting it into a
non-empty domain containing at least one `.` and a non-empty ip.  The
parser is a total function (`lineRecords`/`parseDump` always return a
list), so failed entries never make the overall parse an error. -/
theorem parser_entry_spec (line : List Char) (hm : containsSeq addrPat line = true) :
    (∃ k v, splitFirst '=' line = some (k, v)) ∧
    (∀ k v, splitFirst '=' line = some (k, v) →
      lineRecords line = (extractEntries (cleanVal v)).filterMap parseEntry) ∧
    (∀ entry r, parseEntry entry = some r ↔
      ∃ d i, stripLead entry = d ++ '/' :: i ∧ '/' ∉ d ∧ '/' ∉ i ∧
        d ≠ [] ∧ i ≠ [] ∧ '.' ∈ d ∧
        r = ⟨String.mk (pyStrip pyWs d), String.mk (pyStrip pyWs i)⟩) := by
  refine ⟨?_, fun k v hs => lineRecords_marker hm hs,
    fun entry r => parseEntry_some_iff entry r⟩
  exact splitFirst_some_of_mem (containsSeq_mem hm (by decide : '=' ∈ addrPat))

/-- Witness for C3: on the concrete line
`dhcp.@dnsmasq[0].address='/a.b/1.2.3.4'` the parser output is exactly the
filterMap of the entry parser over the extracted entries. -/
theorem parser_entry_spec_witness :
    lineRecords ("dhcp.@dnsmasq[0].address='/a.b/1.2.3.4'").toList =
      (extractEntries (cleanVal ("'/a.b/1.2.3.4'").toList)).filterMap parseEntry :=
  (parser_entry_spec ("dhcp.@dnsmasq[0].address='/a.b/1.2.3.4'").toList
    (by decide)).2.1 ("dhcp.@dnsmasq[0].address").toList ("'/a.b/1.2.3.4'").toList
    (by decide)

/-! ## Claim C6 -/

/-- C6 (confirmed): for a `PUT /dns` with valid domain and new_ip, when at
least one current record matches the domain (and the ip filter when a
non-empty ip is given), the handler issues one `del_list` per matching
record, then exactly one `add_list` for `(domain, new_ip)` (followed by
`commit` and `reload`), returns `{"status":"updated",...}`, and - when the
external commands succeed - the resulting store is the old one with all
matching entries removed and the single new entry appended; when no record
matches it returns HTTP 404. -/
theorem update_dns_semantics (w : World) (d ipf ni : String) (ms : List Record)
    (hshow : w.showFail = none) (hd : validate_domain d = true)
    (hni : validate_ip ni = true) (hipf : pyStripStr ipf = ipf)
    (hms : ms = (parseDump (renderDump w.store)).filter
        (fun r => r.domain == d && (ipf == "" || r.ip == ipf))) :
    (ms ≠ [] →
      (update_dns w ⟨some d, some ipf, some ni⟩).resp = .updated d ni ∧
      (update_dns w ⟨some d, some ipf, some ni⟩).trace =
        .uciShow :: (ms.map (fun r => Cmd.delList (entryFor r.domain r.ip)) ++
          [.addList (entryFor d ni), .commit, .reload]) ∧
      (w.addFail = none → w.delFail = false →
        (update_dns w ⟨some d, some ipf, some ni⟩).world.store =
          ms.foldl (fun st r => st.filter (· ≠ entryFor r.domain r.ip)) w.store ++
            [entryFor d ni])) ∧
    (ms = [] →
      update_dns w ⟨some d, some ipf, some ni⟩ = ⟨.err 404 "not found", w, [.uciShow]⟩) := by
  subst hms
  refine ⟨fun hm => ?_, fun hm => update_dns_unmatched hshow hd hni hipf hm⟩
  obtain ⟨h1, h2⟩ := update_dns_matched hshow hd hni hipf hm
  refine ⟨h1, h2, fun haf hdf => ?_⟩
  have hd' := pyStripStr_validated_domain hd
  have hni' := pyStripStr_validated_ip hni
  have hdne := validate_domain_ne hd
  have hnine := validate_ip_ne hni
  have hemp : ((parseDump (renderDump w.store)).filter
      (fun r => r.domain == d && (ipf == "" || r.ip == ipf))).isEmpty = false := by
    cases hms : (parseDump (renderDump w.store)).filter
        (fun r => r.domain == d && (ipf == "" || r.ip == ipf)) with
    | nil => exact absurd hms hm
    | cons a as => rfl
  have haf2 : (delAll w ((parseDump (renderDump w.store)).filter
      (fun r => r.domain == d && (ipf == "" || r.ip == ipf)))).1.addFail = none := by
    rw [(delAll_world w _).2.1]
    exact haf
  simp [update_dns, hd', hni', hipf, hdne, hnine, hd, hni, getRecords_ok hshow, hemp,
    runCmd, haf2, delAll_store _ hdf]

/-- Witness for C6: updating `a.b` in a store holding `/a.b/1.2.3.4` issues
one delete plus one add and rewrites the store to `/a.b/5.6.7.8`; updating
`z.z` yields 404. -/
theorem update_dns_semantics_witness :
    (update_dns ⟨["/a.b/1.2.3.4"], none, none, false⟩
        ⟨some "a.b", some "", some "5.6.7.8"⟩).resp = .updated "a.b" "5.6.7.8" ∧
    (update_dns ⟨["/a.b/1.2.3.4"], none, none, false⟩
        ⟨some "a.b", some "", some "5.6.7.8"⟩).trace =
      [.uciShow, .delList (entryFor "a.b" "1.2.3.4"), .addList (entryFor "a.b" "5.6.7.8"),
        .commit, .reload] ∧
    (update_dns ⟨["/a.b/1.2.3.4"], none, none, false⟩
        ⟨some "z.z", some "", some "5.6.7.8"⟩).resp = .err 404 "not found" := by
  obtain ⟨hmat, -⟩ := update_dns_semantics ⟨["/a.b/1.2.3.4"], none, none, false⟩
    "a.b" "" "5.6.7.8" [⟨"a.b", "1.2.3.4"⟩] rfl (by decide) (by decide) rfl (by decide)
  obtain ⟨-, hun⟩ := update_dns_semantics ⟨["/a.b/1.2.3.4"], none, none, false⟩
    "z.z" "" "5.6.7.8" [] rfl (by decide) (by decide) rfl (by decide)
  obtain ⟨hr, ht, -⟩ := hmat (by decide)
  exact ⟨hr, ht, by rw [hun rfl]⟩

/-! ## Supporting lemmas: parsed domains always contain a dot -/

theorem mem_dropWhile {p : Char → Bool} {c : Char} {l : List Char} (hc : c ∈ l)
    (hp : p c = false) : c ∈ l.dropWhile p := by
  induction l with
  | nil => cases hc
  | cons x xs ih =>
    cases hx : p x
    · rw [dropWhile_cons_false hx]
      exact hc
    · rw [dropWhile_cons_true hx]
      rcases List.mem_cons.mp hc with rfl | hc'
      · rw [hp] at hx; cases hx
      · exact ih hc'

theorem mem_pyStrip {p : Char → Bool} {c : Char} {l : List Char} (hc : c ∈ l)
    (hp : p c = false) : c ∈ pyStrip p l := by
  unfold pyStrip
  rw [List.mem_reverse]
  exact mem_dropWhile (List.mem_reverse.mpr (mem_dropWhile hc hp)) hp

theorem lineRecords_domain_dot {line : List Char} {r : Record}
    (hr : r ∈ lineRecords line) : '.' ∈ r.domain.toList := by
  rw [lineRecords] at hr
  by_cases hm : containsSeq addrPat line = true
  · rw [if_pos hm] at hr
    cases hs : splitFirst '=' line with
    | none => rw [hs] at hr; cases hr
    | some kv =>
      obtain ⟨k, v⟩ := kv
      rw [hs] at hr
      dsimp only at hr
      obtain ⟨e, he, hpe⟩ := List.mem_filterMap.mp hr
      obtain ⟨d, i, -, -, -, -, -, hdot, rfl⟩ := (parseEntry_some_iff e r).mp hpe
      exact mem_pyStrip hdot (by decide)
  · rw [if_neg hm] at hr
    cases hr

theorem parseDump_domain_dot {out : String} {r : Record} (hr : r ∈ parseDump out) :
    '.' ∈ r.domain.toList := by
  rw [parseDump] at hr
  obtain ⟨l, hl, hrl⟩ := List.mem_flatten.mp hr
  obtain ⟨line, -, rfl⟩ := List.mem_map.mp hl
  exact lineRecords_domain_dot hrl

/-! ## Supporting lemmas: the POST handler -/

theorem add_dns_ok {w : World} {d i : String} (hshow : w.showFail = none)
    (hd : validate_domain d = true) (hi : validate_ip i = true) (haf : w.addFail = none)
    (hnm : (parseDump (renderDump w.store)).any
        (fun r => r.domain == d && r.ip == i) = false) :
    add_dns w ⟨some d, some i, none⟩ =
      ⟨.added d i, { w with store := w.store ++ [entryFor d i] },
        [.uciShow, .addList (entryFor d i), .commit, .reload]⟩ := by
  have hd' := pyStripStr_validated_domain hd
  have hi' := pyStripStr_validated_ip hi
  have hdne := validate_domain_ne hd
  have hine := validate_ip_ne hi
  simp [add_dns, hd', hi', hdne, hine, hd, hi, getRecords_ok hshow, hnm, runCmd, haf]

theorem add_dns_dup {w : World} {d i : String} (hshow : w.showFail = none)
    (hd : validate_domain d = true) (hi : validate_ip i = true)
    (hyes : (parseDump (renderDump w.store)).any
        (fun r => r.domain == d && r.ip == i) = true) :
    add_dns w ⟨some d, some i, none⟩ = ⟨.exists_, w, [.uciShow]⟩ := by
  have hd' := pyStripStr_validated_domain hd
  have hi' := pyStripStr_validated_ip hi
  have hdne := validate_domain_ne hd
  have hine := validate_ip_ne hi
  simp [add_dns, hd', hi', hdne, hine, hd, hi, getRecords_ok hshow, hyes]

/-! ## Claim C8 -/

/-- C8 (confirmed): every record emitted by the parser has a domain
containing at least one dot, while `validate_domain` accepts dotless
single-label strings.  Hence a POST of a dotless valid domain is accepted
and appends its entry to the store, but the entry never appears in a
subsequent `GET /dns`, and a repeated identical POST returns
`{"status":"added"}` again (the exists-check never matches) instead of
`{"status":"exists"}`. -/
theorem dotless_domain_invisible (w : World) (d i : String)
    (hshow : w.showFail = none) (haf : w.addFail = none)
    (hd : validate_domain d = true) (hnd : '.' ∉ d.toList) (hi : validate_ip i = true) :
    (∀ (out : String) (r : Record), r ∈ parseDump out → '.' ∈ r.domain.toList) ∧
    add_dns w ⟨some d, some i, none⟩ =
      ⟨.added d i, { w with store := w.store ++ [entryFor d i] },
        [.uciShow, .addList (entryFor d i), .commit, .reload]⟩ ∧
    (list_dns { w with store := w.store ++ [entryFor d i] }).resp =
      .records (parseDump (renderDump (w.store ++ [entryFor d i]))) ∧
    (∀ r ∈ parseDump (renderDump (w.store ++ [entryFor d i])), r ≠ ⟨d, i⟩) ∧
    (add_dns { w with store := w.store ++ [entryFor d i] }
      ⟨some d, some i, none⟩).resp = .added d i := by
  have hany : ∀ st : List String,
      (parseDump (renderDump st)).any (fun r => r.domain == d && r.ip == i) = false := by
    intro st
    rw [List.any_eq_false]
    intro r hr hb
    simp only [Bool.and_eq_true, beq_iff_eq] at hb
    exact hnd (hb.1 ▸ parseDump_domain_dot hr)
  refine ⟨fun out r hr => parseDump_domain_dot hr,
    add_dns_ok hshow hd hi haf (hany w.store), ?_, ?_, ?_⟩
  · rw [list_dns, getRecords_ok (w := { w with store := w.store ++ [entryFor d i] }) hshow]
  · intro r hr heq
    subst heq
    exact hnd (parseDump_domain_dot hr)
  · rw [add_dns_ok (w := { w with store := w.store ++ [entryFor d i] }) hshow hd hi haf
      (hany (w.store ++ [entryFor d i]))]

/-- Witness for C8: posting the dotless pair `(abc, 1.2.3.4)` on an empty
store succeeds, and posting the identical pair again still answers
"added", not "exists". -/
theorem dotless_domain_invisible_witness :
    add_dns ⟨[], none, none, false⟩ ⟨some "abc", some "1.2.3.4", none⟩ =
      ⟨.added "abc" "1.2.3.4", ⟨["/abc/1.2.3.4"], none, none, false⟩,
        [.uciShow, .addList (entryFor "abc" "1.2.3.4"), .commit, .reload]⟩ ∧
    (add_dns ⟨["/abc/1.2.3.4"], none, none, false⟩
      ⟨some "abc", some "1.2.3.4", none⟩).resp = .added "abc" "1.2.3.4" := by
  obtain ⟨-, h2, -, -, h5⟩ := dotless_domain_invisible ⟨[], none, none, false⟩
    "abc" "1.2.3.4" rfl rfl (by decide) (by decide) (by decide)
  exact ⟨h2, h5⟩

/-! ## Supporting lemmas: dump rendering and the parse round trip -/

theorem entryFor_toList (d i : String) :
    (entryFor d i).toList = '/' :: (d.toList ++ '/' :: i.toList) := by
  show (("/" ++ d ++ "/") ++ i).toList = _
  have h : ∀ a b : String, (a ++ b).toList = a.toList ++ b.toList := fun _ _ => rfl
  rw [h, h]
  show ('/' :: d.toList) ++ ['/'] ++ i.toList = _
  simp

theorem entry_char_props {c : Char} (h : goodChar c = true ∨ c = '/') :
    pyWs c = false ∧ c ≠ '\'' ∧ c ≠ '"' ∧ c ≠ '=' ∧ c ≠ '\n' := by
  rcases h with h | rfl
  · obtain ⟨a, b, c2, -, e, f⟩ := goodChar_props h
    exact ⟨a, b, c2, e, f⟩
  · exact ⟨by decide, by decide, by decide, by decide, by decide⟩

theorem goodPair_entry_chars {d i : String} (h : GoodPair d i) :
    ∀ c ∈ (entryFor d i).toList, goodChar c = true ∨ c = '/' := by
  intro c hc
  rw [entryFor_toList] at hc
  rcases List.mem_cons.mp hc with rfl | hc'
  · exact Or.inr rfl
  rcases List.mem_append.mp hc' with hcd | hci
  · exact Or.inl (validate_domain_chars h.1 c hcd)
  rcases List.mem_cons.mp hci with rfl | hci'
  · exact Or.inr rfl
  · exact Or.inl (validate_ip_chars h.2.1 c hci')

theorem entry_head_slash (d i : String) : (entryFor d i).toList.head? = some '/' := by
  rw [entryFor_toList]
  rfl

theorem getLast?_append_right {a b : List Char} (hb : b ≠ []) :
    (a ++ b).getLast? = b.getLast? := by
  induction a with
  | nil => rfl
  | cons x a' ih =>
    rw [List.cons_append]
    have hne : a' ++ b ≠ [] := by simp [hb]
    cases hab : a' ++ b with
    | nil => exact absurd hab hne
    | cons y ys =>
      rw [List.getLast?_cons_cons, ← hab, ih]

theorem entry_getLast_good {d i : String} (h : GoodPair d i) :
    ∃ cl, (entryFor d i).toList.getLast? = some cl ∧ goodChar cl = true := by
  have hine := validate_ip_toList_ne h.2.1
  cases hi : i.toList.getLast? with
  | none =>
    rw [List.getLast?_eq_none_iff] at hi
    exact absurd hi hine
  | some cl =>
    refine ⟨cl, ?_, ?_⟩
    · rw [entryFor_toList,
        show '/' :: (d.toList ++ '/' :: i.toList) = ('/' :: d.toList ++ ['/']) ++ i.toList
          from by simp,
        getLast?_append_right hine]
      exact hi
    · exact validate_ip_chars h.2.1 cl (List.mem_of_mem_getLast? hi)

theorem goodEntryL_of_goodPair {d i : String} (h : GoodPair d i) :
    (entryFor d i).toList ≠ [] ∧
      (∀ c ∈ (entryFor d i).toList, goodChar c = true ∨ c = '/') ∧
      (entryFor d i).toList.head? = some '/' ∧
      ∃ cl, (entryFor d i).toList.getLast? = some cl ∧ goodChar cl = true := by
  refine ⟨?_, goodPair_entry_chars h, entry_head_slash d i, entry_getLast_good h⟩
  rw [entryFor_toList]
  simp

theorem splitQS_no_quote {e : List Char} (h : '\'' ∉ e) : splitQS e = [e] := by
  induction e with
  | nil => rfl
  | cons x xs ih =>
    have hx : x ≠ '\'' := fun hh => h (List.mem_cons.mpr (Or.inl hh.symm))
    have hxs : '\'' ∉ xs := fun hh => h (List.mem_cons_of_mem _ hh)
    cases xs with
    | nil => rfl
    | cons y ys =>
      cases ys with
      | nil => rfl
      | cons z zs =>
        rw [splitQS, if_neg (fun hcond => hx hcond.1), ih hxs]
        rfl

theorem splitQS_append {e rest : List Char} (h : '\'' ∉ e) :
    splitQS (e ++ '\'' :: ' ' :: '\'' :: rest) = e :: splitQS rest := by
  induction e with
  | nil =>
    rw [List.nil_append, splitQS, if_pos ⟨rfl, rfl, rfl⟩]
  | cons x e' ih =>
    have hx : x ≠ '\'' := fun hh => h (List.mem_cons.mpr (Or.inl hh.symm))
    have he' : '\'' ∉ e' := fun hh => h (List.mem_cons_of_mem _ hh)
    have ihe := ih he'
    cases e' with
    | nil =>
      rw [List.nil_append] at ihe
      rw [List.cons_append, List.nil_append, splitQS, if_neg (fun hcond => hx hcond.1), ihe]
      rfl
    | cons y e'' =>
      cases e'' with
      | nil =>
        simp only [List.cons_append, List.nil_append] at ihe ⊢
        rw [splitQS, if_neg (fun hcond => hx hcond.1), ihe]
        rfl
      | cons z e''' =>
        simp only [List.cons_append] at ihe ⊢
        rw [splitQS, if_neg (fun hcond => hx hcond.1), ihe]
        rfl

theorem isPrefixOf_append_self (p t : List Char) : p.isPrefixOf (p ++ t) = true := by
  induction p with
  | nil => simp [List.isPrefixOf]
  | cons x xs ih => simp [List.isPrefixOf, ih]

theorem containsSeq_append_self (pat a b : List Char) :
    containsSeq pat (a ++ pat ++ b) = true := by
  induction a with
  | nil =>
    cases pat with
    | nil => cases b <;> simp [containsSeq, List.isPrefixOf]
    | cons p ps =>
      rw [List.nil_append, List.cons_append, containsSeq]
      have : (p :: ps).isPrefixOf (p :: (ps ++ b)) = true := isPrefixOf_append_self (p :: ps) b
      rw [this]
      rfl
  | cons x a' ih =>
    rw [List.cons_append, List.cons_append, containsSeq, ih]
    simp

theorem containsSeq_no_quote {v : List Char} (h : '\'' ∉ v) :
    containsSeq qsPat v = false := by
  induction v with
  | nil => rfl
  | cons x xs ih =>
    have hx : ('\'' : Char) ≠ x := fun hh => h (List.mem_cons.mpr (Or.inl hh))
    rw [containsSeq]
    have hpre : qsPat.isPrefixOf (x :: xs) = false := by
      simp [qsPat, List.isPrefixOf, hx]
    rw [hpre, ih (fun hh => h (List.mem_cons_of_mem _ hh))]
    rfl

theorem interQS_cons_ne {f : List Char} (es : List (List Char)) (hf : f ≠ []) :
    interQS (f :: es) ≠ [] := by
  cases es with
  | nil => exact hf
  | cons g es' => simp [interQS, qsPat]

theorem interQS_head {e : List Char} (es : List (List Char)) (he : e ≠ []) :
    (interQS (e :: es)).head? = e.head? := by
  cases es with
  | nil => rfl
  | cons f es' =>
    cases e with
    | nil => exact absurd rfl he
    | cons x xs => rfl

theorem interQS_getLast (es : List (List Char)) (hne : es ≠ [])
    (h : ∀ e ∈ es, e ≠ []) :
    ∃ e ∈ es, (interQS es).getLast? = e.getLast? := by
  induction es with
  | nil => exact absurd rfl hne
  | cons f es' ih =>
    cases es' with
    | nil => exact ⟨f, List.mem_cons_self _ _, rfl⟩
    | cons g es'' =>
      obtain ⟨e, he, heq⟩ := ih (by simp) (fun e he' => h e (List.mem_cons_of_mem _ he'))
      refine ⟨e, List.mem_cons_of_mem _ he, ?_⟩
      rw [show interQS (f :: g :: es'') = f ++ (qsPat ++ interQS (g :: es'')) from by
        rw [interQS]; exact List.append_assoc f qsPat _]
      rw [getLast?_append_right (by simp [qsPat]), getLast?_append_right
        (interQS_cons_ne es'' (h g (List.mem_cons_of_mem _ (List.mem_cons_self _ _)))), heq]

theorem interQS_mem {c : Char} : ∀ {es : List (List Char)}, c ∈ interQS es →
    (∃ e ∈ es, c ∈ e) ∨ c ∈ qsPat := by
  intro es
  induction es with
  | nil => intro hc; cases hc
  | cons f es' ih =>
    cases es' with
    | nil => intro hc; exact Or.inl ⟨f, List.mem_cons_self _ _, hc⟩
    | cons g es'' =>
      intro hc
      rw [interQS] at hc
      rcases List.mem_append.mp hc with h1 | h2
      · rcases List.mem_append.mp h1 with hf | hq
        · exact Or.inl ⟨f, List.mem_cons_self _ _, hf⟩
        · exact Or.inr hq
      · rcases ih h2 with ⟨e, he, hce⟩ | hq
        · exact Or.inl ⟨e, List.mem_cons_of_mem _ he, hce⟩
        · exact Or.inr hq

theorem splitQS_interQS : ∀ {es : List (List Char)}, es ≠ [] →
    (∀ e ∈ es, '\'' ∉ e) → splitQS (interQS es) = es := by
  intro es
  induction es with
  | nil => intro h _; exact absurd rfl h
  | cons f es' ih =>
    intro _ hq
    cases es' with
    | nil => exact splitQS_no_quote (hq f (List.mem_cons_self _ _))
    | cons g es'' =>
      have h1 : interQS (f :: g :: es'') =
          f ++ '\'' :: ' ' :: '\'' :: interQS (g :: es'') := by
        rw [interQS, List.append_assoc, qsPat]
        rfl
      rw [h1, splitQS_append (hq f (List.mem_cons_self _ _)),
        ih (by simp) (fun e he => hq e (List.mem_cons_of_mem _ he))]

theorem filterMap_congr_some {α : Type} {f : α → Option α} :
    ∀ {l : List α}, (∀ e ∈ l, f e = some e) → l.filterMap f = l := by
  intro l
  induction l with
  | nil => intro _; rfl
  | cons x xs ih =>
    intro h
    rw [List.filterMap_cons, h x (List.mem_cons_self _ _),
      ih (fun e he => h e (List.mem_cons_of_mem _ he))]

theorem filterMap_all_some {α β : Type} {f : α → Option β} {g : α → β} :
    ∀ {l : List α}, (∀ a ∈ l, f a = some (g a)) → l.filterMap f = l.map g := by
  intro l
  induction l with
  | nil => intro _; rfl
  | cons x xs ih =>
    intro h
    rw [List.filterMap_cons, h x (List.mem_cons_self _ _), List.map_cons,
      ih (fun e he => h e (List.mem_cons_of_mem _ he))]

theorem extractEntries_interQS {es : List (List Char)} (hne : es ≠ [])
    (hg : ∀ e ∈ es, e ≠ [] ∧ ∀ c ∈ e, goodChar c = true ∨ c = '/') :
    extractEntries (interQS es) = es := by
  have hq' : ∀ e ∈ es, '\'' ∉ e :=
    fun e he hc => (entry_char_props ((hg e he).2 '\'' hc)).2.1 rfl
  have hclean : ∀ e ∈ es,
      (fun part => let p := cleanVal part; if p.isEmpty then none else some p) e
        = some e := by
    intro e he
    have hcl : cleanVal e = e := by
      rw [cleanVal,
        pyStrip_of_forall_false (fun c hc => (entry_char_props ((hg e he).2 c hc)).1)]
      rw [pyStrip_of_forall_false (p := fun c => c == '\'')
        (fun c hc => by simp [(entry_char_props ((hg e he).2 c hc)).2.1])]
      rw [pyStrip_of_forall_false (p := fun c => c == '"')
        (fun c hc => by simp [(entry_char_props ((hg e he).2 c hc)).2.2.1])]
    dsimp only
    rw [hcl, if_neg (by simp [List.isEmpty_iff, (hg e he).1])]
  rw [extractEntries]
  cases es with
  | nil => exact absurd rfl hne
  | cons f es' =>
    cases es' with
    | nil =>
      rw [show interQS [f] = f from rfl,
        if_neg (by rw [containsSeq_no_quote (hq' f (List.mem_cons_self _ _))]; simp)]
    | cons g es'' =>
      have hct : containsSeq qsPat (interQS (f :: g :: es'')) = true := by
        rw [show interQS (f :: g :: es'') = f ++ qsPat ++ interQS (g :: es'') from by
          rw [interQS]]
        exact containsSeq_append_self qsPat f _
      rw [if_pos hct, splitQS_interQS (by simp) hq']
      exact filterMap_congr_some hclean

theorem cleanVal_wrap {mid : List Char} (_hmidne : mid ≠ [])
    (hhead : ∀ c, mid.head? = some c → (goodChar c = true ∨ c = '/'))
    (hlast : ∀ c, mid.getLast? = some c → (goodChar c = true ∨ c = '/')) :
    cleanVal ('\'' :: (mid ++ ['\''])) = mid := by
  rw [cleanVal]
  have h1 : pyStrip pyWs ('\'' :: (mid ++ ['\''])) = '\'' :: (mid ++ ['\'']) := by
    apply pyStrip_of_ends
    · intro c hc
      injection hc with hc'
      rw [← hc']
      decide
    · intro c hc
      have : ('\'' :: (mid ++ ['\''])).getLast? = some '\'' :=
        List.getLast?_concat ('\'' :: mid)
      rw [this] at hc
      injection hc with hc'
      rw [← hc']
      decide
  rw [h1]
  have h2 : pyStrip (fun c => c == '\'') ('\'' :: (mid ++ ['\''])) = mid := by
    apply pyStrip_wrap (by decide)
    · intro c hc
      simp [(entry_char_props (hhead c hc)).2.1]
    · intro c hc
      simp [(entry_char_props (hlast c hc)).2.1]
  rw [h2]
  apply pyStrip_of_ends
  · intro c hc
    simp [(entry_char_props (hhead c hc)).2.2.1]
  · intro c hc
    simp [(entry_char_props (hlast c hc)).2.2.1]

theorem splitFirst_append {c : Char} {a : List Char} (b : List Char) (h : c ∉ a) :
    splitFirst c (a ++ c :: b) = some (a, b) := by
  induction a with
  | nil => rw [List.nil_append, splitFirst, if_pos rfl]
  | cons x a' ih =>
    have hx : x ≠ c := fun hh => h (List.mem_cons.mpr (Or.inl hh.symm))
    rw [List.cons_append, splitFirst, if_neg hx, ih (fun hh => h (List.mem_cons_of_mem _ hh))]

theorem pySplitlines_single {l : List Char} (h : '\n' ∉ l) (hne : l ≠ []) :
    pySplitlines l = [l] := by
  rw [pySplitlines, splitOnChar_of_not_mem h]
  simp [hne]

theorem parseEntry_entryFor {d i : String} (h : GoodPair d i) :
    parseEntry (entryFor d i).toList = some ⟨d, i⟩ := by
  apply (parseEntry_some_iff _ _).mpr
  have hdsl : '/' ∉ d.toList := fun hc =>
    absurd (validate_domain_chars h.1 '/' hc) (by decide)
  have hisl : '/' ∉ i.toList := fun hc =>
    absurd (validate_ip_chars h.2.1 '/' hc) (by decide)
  refine ⟨d.toList, i.toList, ?_, hdsl, hisl,
    validate_domain_toList_ne h.1, validate_ip_toList_ne h.2.1, h.2.2, ?_⟩
  · rw [entryFor_toList, stripLead]
    rfl
  · rw [pyStrip_of_forall_false
      (fun c hc => (goodChar_props (validate_domain_chars h.1 c hc)).1),
      pyStrip_of_forall_false
      (fun c hc => (goodChar_props (validate_ip_chars h.2.1 c hc)).1),
      string_mk_toList, string_mk_toList]

theorem lineRecords_render {es : List (List Char)} (hne : es ≠ [])
    (hg : ∀ e ∈ es, e ≠ [] ∧ (∀ c ∈ e, goodChar c = true ∨ c = '/') ∧
      e.head? = some '/' ∧ ∃ cl, e.getLast? = some cl ∧ goodChar cl = true) :
    lineRecords (dumpKey ++ '=' :: ('\'' :: (interQS es ++ ['\'']))) =
      es.filterMap parseEntry := by
  have hpre : dumpKey ++ ['='] =
      ['d', 'h', 'c', 'p', '.', '@', 'd', 'n', 's', 'm', 'a', 's', 'q', '[', '0', ']']
        ++ addrPat := by decide
  have hline : ∀ v : List Char, dumpKey ++ '=' :: v =
      ['d', 'h', 'c', 'p', '.', '@', 'd', 'n', 's', 'm', 'a', 's', 'q', '[', '0', ']']
        ++ addrPat ++ v := by
    intro v
    rw [show ('=' :: v : List Char) = ['='] ++ v from rfl, ← List.append_assoc, hpre]
  have hmark : containsSeq addrPat
      (dumpKey ++ '=' :: ('\'' :: (interQS es ++ ['\'']))) = true := by
    rw [hline]
    exact containsSeq_append_self addrPat _ _
  have hsf : splitFirst '=' (dumpKey ++ '=' :: ('\'' :: (interQS es ++ ['\'']))) =
      some (dumpKey, '\'' :: (interQS es ++ ['\''])) :=
    splitFirst_append _ (by decide)
  rw [lineRecords_marker hmark hsf]
  cases es with
  | nil => exact absurd rfl hne
  | cons f es' =>
    have hfne : f ≠ [] := (hg f (List.mem_cons_self _ _)).1
    have hhead : ∀ c, (interQS (f :: es')).head? = some c →
        (goodChar c = true ∨ c = '/') := by
      intro c hc
      rw [interQS_head es' hfne, (hg f (List.mem_cons_self _ _)).2.2.1] at hc
      injection hc with hc'
      exact Or.inr hc'.symm
    have hlast : ∀ c, (interQS (f :: es')).getLast? = some c →
        (goodChar c = true ∨ c = '/') := by
      intro c hc
      obtain ⟨e, he, heq⟩ := interQS_getLast (f :: es') (by simp)
        (fun e he => (hg e he).1)
      obtain ⟨cl, hcl, hclg⟩ := (hg e he).2.2.2
      rw [heq, hcl] at hc
      injection hc with hc'
      rw [← hc']
      exact Or.inl hclg
    rw [cleanVal_wrap (interQS_cons_ne es' hfne) hhead hlast,
      extractEntries_interQS (by simp) (fun e he => ⟨(hg e he).1, (hg e he).2.1⟩)]

theorem parseDump_renderDump (pairs : List (String × String))
    (hg : ∀ p ∈ pairs, GoodPair p.1 p.2) :
    parseDump (renderDump (pairs.map (fun p => entryFor p.1 p.2))) =
      pairs.map (fun p => (⟨p.1, p.2⟩ : Record)) := by
  cases pairs with
  | nil => rfl
  | cons p0 ps =>
    have hes : ∀ e ∈ ((p0 :: ps).map (fun p => entryFor p.1 p.2)).map String.toList,
        e ≠ [] ∧ (∀ c ∈ e, goodChar c = true ∨ c = '/') ∧ e.head? = some '/' ∧
          ∃ cl, e.getLast? = some cl ∧ goodChar cl = true := by
      intro e he
      rw [List.map_map] at he
      obtain ⟨p, hp, rfl⟩ := List.mem_map.mp he
      exact goodEntryL_of_goodPair (hg p hp)
    have hnl : '\n' ∉ (dumpKey ++ '=' ::
        ('\'' :: (interQS (((p0 :: ps).map (fun p => entryFor p.1 p.2)).map
          String.toList) ++ ['\'']))) := by
      intro hc
      rcases List.mem_append.mp hc with hk | hv
      · exact absurd hk (by decide)
      rcases List.mem_cons.mp hv with h1 | hv2
      · exact absurd h1 (by decide)
      rcases List.mem_cons.mp hv2 with h1 | hv3
      · exact absurd h1 (by decide)
      rcases List.mem_append.mp hv3 with hm | hq
      · rcases interQS_mem hm with ⟨e, he, hce⟩ | hq'
        · exact (entry_char_props ((hes e he).2.1 '\n' hce)).2.2.2.2 rfl
        · exact absurd hq' (by decide)
      · exact absurd hq (by decide)
    rw [show renderDump ((p0 :: ps).map (fun p => entryFor p.1 p.2)) =
        String.mk (dumpKey ++ '=' ::
          ('\'' :: (interQS (((p0 :: ps).map (fun p => entryFor p.1 p.2)).map
            String.toList) ++ ['\'']))) from rfl]
    rw [parseDump, show ∀ l : List Char, (String.mk l).toList = l from fun _ => rfl,
      pySplitlines_single hnl (by simp [dumpKey])]
    rw [show ∀ l : List Char, ([l].map lineRecords).flatten = lineRecords l from
      fun _ => by simp]
    rw [lineRecords_render (by simp) hes, List.map_map, List.filterMap_map]
    apply filterMap_all_some
    intro p hp
    exact parseEntry_entryFor (hg p hp)

/-! ## Claim C2 -/

/-- C2 (corrected): the POST round trip holds for valid pairs whose domain
contains at least one dot (the parser only ever emits dotted domains, see
C8, so `GoodPair` additionally requires the dot): if the pair is not
currently present, adding it and then listing yields the old records plus
exactly one record equal to the pair; if the pair is already present as an
exact-match record, the second identical POST returns `{"status":"exists"}`
with no `add_list`/`commit`/`reload` invocation and an unchanged store. -/
theorem add_roundtrip (w : World) (pairs : List (String × String)) (d i : String)
    (hshow : w.showFail = none) (haf : w.addFail = none)
    (hst : w.store = pairs.map (fun p => entryFor p.1 p.2))
    (hg : ∀ p ∈ pairs, GoodPair p.1 p.2) (hgd : GoodPair d i) :
    ((⟨d, i⟩ : Record) ∉ pairs.map (fun p => (⟨p.1, p.2⟩ : Record)) →
      add_dns w ⟨some d, some i, none⟩ =
        ⟨.added d i, { w with store := w.store ++ [entryFor d i] },
          [.uciShow, .addList (entryFor d i), .commit, .reload]⟩ ∧
      (list_dns { w with store := w.store ++ [entryFor d i] }).resp =
        .records (pairs.map (fun p => (⟨p.1, p.2⟩ : Record)) ++ [⟨d, i⟩]) ∧
      List.count (⟨d, i⟩ : Record)
        (pairs.map (fun p => (⟨p.1, p.2⟩ : Record)) ++ [⟨d, i⟩]) = 1) ∧
    ((⟨d, i⟩ : Record) ∈ pairs.map (fun p => (⟨p.1, p.2⟩ : Record)) →
      add_dns w ⟨some d, some i, none⟩ = ⟨.exists_, w, [.uciShow]⟩) := by
  have hrt : parseDump (renderDump w.store) =
      pairs.map (fun p => (⟨p.1, p.2⟩ : Record)) := by
    rw [hst]
    exact parseDump_renderDump pairs hg
  have hmap : pairs.map (fun p => entryFor p.1 p.2) ++ [entryFor d i] =
      (pairs ++ [(d, i)]).map (fun p => entryFor p.1 p.2) := by
    simp
  have hgall : ∀ p ∈ pairs ++ [(d, i)], GoodPair p.1 p.2 := by
    intro p hp
    rcases List.mem_append.mp hp with hp1 | hp2
    · exact hg p hp1
    · rcases List.mem_cons.mp hp2 with rfl | h0
      · exact hgd
      · cases h0
  have hrt2 : parseDump (renderDump (w.store ++ [entryFor d i])) =
      pairs.map (fun p => (⟨p.1, p.2⟩ : Record)) ++ [⟨d, i⟩] := by
    rw [hst, hmap, parseDump_renderDump (pairs ++ [(d, i)]) hgall]
    simp
  constructor
  · intro hnot
    have hnm : (parseDump (renderDump w.store)).any
        (fun r => r.domain == d && r.ip == i) = false := by
      rw [hrt, List.any_eq_false]
      intro r hr hb
      simp only [Bool.and_eq_true, beq_iff_eq] at hb
      apply hnot
      obtain ⟨h1, h2⟩ := hb
      cases r
      subst h1
      subst h2
      exact hr
    refine ⟨add_dns_ok hshow hgd.1 hgd.2.1 haf hnm, ?_, ?_⟩
    · rw [list_dns,
        getRecords_ok (w := { w with store := w.store ++ [entryFor d i] }) hshow]
      rw [show ({ w with store := w.store ++ [entryFor d i] } : World).store =
        w.store ++ [entryFor d i] from rfl, hrt2]
    · rw [List.count_append, List.count_eq_zero.mpr hnot]
      simp
  · intro hmem
    apply add_dns_dup hshow hgd.1 hgd.2.1
    rw [hrt, List.any_eq_true]
    exact ⟨⟨d, i⟩, hmem, by simp⟩

/-- Witness for C2: adding the fresh dotted pair `(c.d, 5.6.7.8)` next to
`/a.b/1.2.3.4` succeeds and a re-POST of the existing pair answers
"exists" without mutating anything. -/
theorem add_roundtrip_witness :
    add_dns ⟨["/a.b/1.2.3.4"], none, none, false⟩ ⟨some "c.d", some "5.6.7.8", none⟩ =
      ⟨.added "c.d" "5.6.7.8",
        ⟨["/a.b/1.2.3.4", entryFor "c.d" "5.6.7.8"], none, none, false⟩,
        [.uciShow, .addList (entryFor "c.d" "5.6.7.8"), .commit, .reload]⟩ ∧
    add_dns ⟨["/a.b/1.2.3.4"], none, none, false⟩ ⟨some "a.b", some "1.2.3.4", none⟩ =
      ⟨.exists_, ⟨["/a.b/1.2.3.4"], none, none, false⟩, [.uciShow]⟩ := by
  obtain ⟨h1, -⟩ := add_roundtrip ⟨["/a.b/1.2.3.4"], none, none, false⟩
    [("a.b", "1.2.3.4")] "c.d" "5.6.7.8" rfl rfl (by decide) (by decide) (by decide)
  obtain ⟨-, h2⟩ := add_roundtrip ⟨["/a.b/1.2.3.4"], none, none, false⟩
    [("a.b", "1.2.3.4")] "a.b" "1.2.3.4" rfl rfl (by decide) (by decide) (by decide)
  exact ⟨(h1 (by decide)).1, h2 (by decide)⟩

/-- Counterexample for C2: the claim quantifies over every valid pair, but
for the dotless pair `(abc, 1.2.3.4)` (accepted by the validators and not
present) the POST answers "added" while the subsequent listing holds no
record at all equal to the pair - not exactly one. -/
theorem add_roundtrip_cex :
    validate_domain "abc" = true ∧ validate_ip "1.2.3.4" = true ∧
    (add_dns ⟨[], none, none, false⟩ ⟨some "abc", some "1.2.3.4", none⟩).resp =
      .added "abc" "1.2.3.4" ∧
    (list_dns (add_dns ⟨[], none, none, false⟩
      ⟨some "abc", some "1.2.3.4", none⟩).world).resp = .records [] :=
  ⟨by decide, by decide, by decide, by decide⟩

/-! ## Supporting lemmas: the lock invariant (claim C10) -/

theorem record_beq_eq {r : Record} {d i : String}
    (h : (r.domain == d && r.ip == i) = true) : r = ⟨d, i⟩ := by
  simp only [Bool.and_eq_true, beq_iff_eq] at h
  cases r
  simp_all

theorem perm_pair {α : Type} {l : List α} {a b : α}
    (h : l.Perm [a, b]) : l = [a, b] ∨ l = [b, a] := by
  have hlen := h.length_eq
  cases l with
  | nil => simp at hlen
  | cons x l1 =>
    cases l1 with
    | nil => simp at hlen
    | cons y l2 =>
      cases l2 with
      | cons z l3 => simp at hlen
      | nil =>
        have hx : x ∈ [a, b] := h.mem_iff.mp (List.mem_cons_self _ _)
        rcases List.mem_cons.mp hx with rfl | hx2
        · have h2 := h.cons_inv
          have h3 : ([y] : List α) = [b] := List.perm_singleton.mp h2
          injection h3 with h4 _
          left
          rw [h4]
        · rcases List.mem_cons.mp hx2 with rfl | hx3
          · have ha : a ∈ [x, y] := h.symm.mem_iff.mp (List.mem_cons_self _ _)
            rcases List.mem_cons.mp ha with rfl | ha2
            · have h2 := h.cons_inv
              have h3 : ([y] : List α) = [a] := List.perm_singleton.mp h2
              injection h3 with h4 _
              left
              rw [h4]
            · rcases List.mem_cons.mp ha2 with rfl | ha3
              · right
                rfl
              · cases ha3
          · cases hx3

theorem store_snoc_map (pairs0 : List (String × String)) (d i : String) :
    (pairs0.map (fun p => entryFor p.1 p.2)) ++ [entryFor d i] =
      (pairs0 ++ [(d, i)]).map (fun p => entryFor p.1 p.2) := by
  simp

theorem goodPairs_snoc {pairs0 : List (String × String)} {d i : String}
    (hg : ∀ p ∈ pairs0, GoodPair p.1 p.2) (hdi : GoodPair d i) :
    ∀ p ∈ pairs0 ++ [(d, i)], GoodPair p.1 p.2 := by
  intro p hp
  rcases List.mem_append.mp hp with hp1 | hp2
  · exact hg p hp1
  · rcases List.mem_cons.mp hp2 with rfl | h0
    · exact hdi
    · cases h0

theorem inv_step {pairs0 : List (String × String)} {dA iA dB iB : String}
    (hg : ∀ p ∈ pairs0, GoodPair p.1 p.2) (hgA : GoodPair dA iA) (hgB : GoodPair dB iB)
    (hAB : dA ≠ dB)
    (hfA : (⟨dA, iA⟩ : Record) ∉ pairs0.map (fun p => (⟨p.1, p.2⟩ : Record)))
    (hfB : (⟨dB, iB⟩ : Record) ∉ pairs0.map (fun p => (⟨p.1, p.2⟩ : Record)))
    {s t : CState} (hs : Inv pairs0 dA iA dB iB s) (hstep : Step dA iA dB iB s t) :
    Inv pairs0 dA iA dB iB t := by
  obtain ⟨hLA, hLB, ⟨l, hstore, hperm⟩, hsnapA, hsnapB, hrespA, hrespB⟩ := hs
  cases hstep with
  | acquireA h1 h2 =>
    refine ⟨?_, ?_, ⟨l, hstore, by simpa [wrote, h2] using hperm⟩, ?_, hsnapB, ?_, hrespB⟩
    · simp [inCrit]
    · constructor
      · intro h
        simp at h
      · intro hc
        have hL := hLB.mpr hc
        rw [h1] at hL
        simp at hL
    · intro h
      simp at h
    · intro h
      rcases h with h | h <;> simp at h
  | readA h1 h2 =>
    refine ⟨?_, ?_, ⟨l, hstore, by simpa [wrote, h2] using hperm⟩, ?_, hsnapB, ?_, hrespB⟩
    · simp [inCrit, h1]
    · constructor
      · intro h
        have h0 : s.lockBy = some false := h
        rw [h1] at h0
        simp at h0
      · intro hc
        have hL := hLB.mpr hc
        rw [h1] at hL
        simp at hL
    · intro _
      rfl
    · intro h
      rcases h with h | h <;> simp at h
  | writeA_hit h1 h2 h3 =>
    exfalso
    have hsnap := hsnapA h2
    have hnB : ¬ inCrit s.thB := by
      intro hc
      have hL := hLB.mpr hc
      rw [h1] at hL
      simp at hL
    have hBcases : s.thB.phase = .ready ∨ s.thB.phase = .done := by
      cases hph : s.thB.phase
      · exact Or.inl rfl
      · exact absurd (Or.inl hph) hnB
      · exact absurd (Or.inr (Or.inl hph)) hnB
      · exact absurd (Or.inr (Or.inr hph)) hnB
      · exact Or.inr rfl
    obtain ⟨r, hrmem, hrb⟩ := List.any_eq_true.mp h3
    have hreq : r = ⟨dA, iA⟩ := record_beq_eq hrb
    subst hreq
    rw [hsnap] at hrmem
    rcases hBcases with hB | hB
    · have hl : l.Perm [] := by simpa [wrote, h2, hB] using hperm
      rw [hstore, List.Perm.eq_nil hl, List.append_nil,
        parseDump_renderDump pairs0 hg] at hrmem
      exact hfA hrmem
    · have hl : l = [entryFor dB iB] := List.perm_singleton.mp
        (by simpa [wrote, h2, hB] using hperm)
      rw [hstore, hl, store_snoc_map,
        parseDump_renderDump _ (goodPairs_snoc hg hgB), List.map_append] at hrmem
      rcases List.mem_append.mp hrmem with hm1 | hm2
      · exact hfA hm1
      · rcases List.mem_cons.mp hm2 with hm3 | hm4
        · injection hm3 with he _
          exact hAB he
        · cases hm4
  | writeA_miss h1 h2 h3 =>
    have hperm2 : l.Perm (wrote dB iB s.thB) := by simpa [wrote, h2] using hperm
    refine ⟨?_, ?_, ?_, ?_, ?_, ?_, hrespB⟩
    · simp [inCrit, h1]
    · constructor
      · intro h
        have h0 : s.lockBy = some false := h
        rw [h1] at h0
        simp at h0
      · intro hc
        have hL := hLB.mpr hc
        rw [h1] at hL
        simp at hL
    · refine ⟨l ++ [entryFor dA iA], by rw [hstore, List.append_assoc], ?_⟩
      have hstep1 := hperm2.append_right [entryFor dA iA]
      have hstep2 := hstep1.trans (List.perm_append_comm)
      simpa [wrote] using hstep2
    · intro h
      simp at h
    · intro hB
      have hL := hLB.mpr (Or.inr (Or.inl hB))
      rw [h1] at hL
      simp at hL
    · intro _
      rfl
  | releaseA h1 h2 =>
    refine ⟨?_, ?_, ⟨l, hstore, by simpa [wrote, h2] using hperm⟩, ?_, hsnapB,
      fun _ => hrespA (Or.inl h2), hrespB⟩
    · constructor
      · intro h
        simp at h
      · intro hc
        rcases hc with h | h | h <;> simp at h
    · constructor
      · intro h
        simp at h
      · intro hc
        have hL := hLB.mpr hc
        rw [h1] at hL
        simp at hL
    · intro h
      simp at h
  | acquireB h1 h2 =>
    refine ⟨?_, ?_, ⟨l, hstore, by simpa [wrote, h2] using hperm⟩, hsnapA, ?_, hrespA, ?_⟩
    · constructor
      · intro h
        simp at h
      · intro hc
        have hL := hLA.mpr hc
        rw [h1] at hL
        simp at hL
    · simp [inCrit]
    · intro h
      simp at h
    · intro h
      rcases h with h | h <;> simp at h
  | readB h1 h2 =>
    refine ⟨?_, ?_, ⟨l, hstore, by simpa [wrote, h2] using hperm⟩, hsnapA, ?_, hrespA, ?_⟩
    · constructor
      · intro h
        have h0 : s.lockBy = some true := h
        rw [h1] at h0
        simp at h0
      · intro hc
        have hL := hLA.mpr hc
        rw [h1] at hL
        simp at hL
    · simp [inCrit, h1]
    · intro _
      rfl
    · intro h
      rcases h with h | h <;> simp at h
  | writeB_hit h1 h2 h3 =>
    exfalso
    have hsnap := hsnapB h2
    have hnA : ¬ inCrit s.thA := by
      intro hc
      have hL := hLA.mpr hc
      rw [h1] at hL
      simp at hL
    have hAcases : s.thA.phase = .ready ∨ s.thA.phase = .done := by
      cases hph : s.thA.phase
      · exact Or.inl rfl
      · exact absurd (Or.inl hph) hnA
      · exact absurd (Or.inr (Or.inl hph)) hnA
      · exact absurd (Or.inr (Or.inr hph)) hnA
      · exact Or.inr rfl
    obtain ⟨r, hrmem, hrb⟩ := List.any_eq_true.mp h3
    have hreq : r = ⟨dB, iB⟩ := record_beq_eq hrb
    subst hreq
    rw [hsnap] at hrmem
    rcases hAcases with hA | hA
    · have hl : l.Perm [] := by simpa [wrote, h2, hA] using hperm
      rw [hstore, List.Perm.eq_nil hl, List.append_nil,
        parseDump_renderDump pairs0 hg] at hrmem
      exact hfB hrmem
    · have hl : l = [entryFor dA iA] := List.perm_singleton.mp
        (by simpa [wrote, h2, hA] using hperm)
      rw [hstore, hl, store_snoc_map,
        parseDump_renderDump _ (goodPairs_snoc hg hgA), List.map_append] at hrmem
      rcases List.mem_append.mp hrmem with hm1 | hm2
      · exact hfB hm1
      · rcases List.mem_cons.mp hm2 with hm3 | hm4
        · injection hm3 with he _
          exact hAB he.symm
        · cases hm4
  | writeB_miss h1 h2 h3 =>
    have hperm2 : l.Perm (wrote dA iA s.thA) := by
      have hcomm := hperm.trans (List.perm_append_comm)
      simpa [wrote, h2] using hcomm
    refine ⟨?_, ?_, ?_, ?_, ?_, hrespA, ?_⟩
    · constructor
      · intro h
        have h0 : s.lockBy = some true := h
        rw [h1] at h0
        simp at h0
      · intro hc
        have hL := hLA.mpr hc
        rw [h1] at hL
        simp at hL
    · simp [inCrit, h1]
    · refine ⟨l ++ [entryFor dB iB], by rw [hstore, List.append_assoc], ?_⟩
      have hstep1 := hperm2.append_right [entryFor dB iB]
      simpa [wrote] using hstep1
    · intro hA
      have hL := hLA.mpr (Or.inr (Or.inl hA))
      rw [h1] at hL
      simp at hL
    · intro h
      simp at h
    · intro _
      rfl
  | releaseB h1 h2 =>
    refine ⟨?_, ?_, ⟨l, hstore, by simpa [wrote, h2] using hperm⟩, hsnapA, ?_, hrespA,
      fun _ => hrespB (Or.inl h2)⟩
    · constructor
      · intro h
        simp at h
      · intro hc
        have hL := hLA.mpr hc
        rw [h1] at hL
        simp at hL
    · constructor
      · intro h
        simp at h
      · intro hc
        rcases hc with h | h | h <;> simp at h
    · intro h
      simp at h

theorem inv_init (pairs0 : List (String × String)) (dA iA dB iB : String) :
    Inv pairs0 dA iA dB iB (initC (pairs0.map (fun p => entryFor p.1 p.2))) := by
  refine ⟨?_, ?_, ⟨[], by simp [initC], by simp [wrote, initC]⟩, ?_, ?_, ?_, ?_⟩
  · constructor
    · intro h
      simp [initC] at h
    · intro hc
      rcases hc with h | h | h <;> simp [initC] at h
  · constructor
    · intro h
      simp [initC] at h
    · intro hc
      rcases hc with h | h | h <;> simp [initC] at h
  · intro h
    simp [initC] at h
  · intro h
    simp [initC] at h
  · intro h
    rcases h with h | h <;> simp [initC] at h
  · intro h
    rcases h with h | h <;> simp [initC] at h

theorem reach_inv {pairs0 : List (String × String)} {dA iA dB iB : String}
    (hg : ∀ p ∈ pairs0, GoodPair p.1 p.2) (hgA : GoodPair dA iA) (hgB : GoodPair dB iB)
    (hAB : dA ≠ dB)
    (hfA : (⟨dA, iA⟩ : Record) ∉ pairs0.map (fun p => (⟨p.1, p.2⟩ : Record)))
    (hfB : (⟨dB, iB⟩ : Record) ∉ pairs0.map (fun p => (⟨p.1, p.2⟩ : Record)))
    {s : CState}
    (hreach : Reach dA iA dB iB (initC (pairs0.map (fun p => entryFor p.1 p.2))) s) :
    Inv pairs0 dA iA dB iB s := by
  induction hreach with
  | refl => exact inv_init pairs0 dA iA dB iB
  | tail hsteps hstep ih => exact inv_step hg hgA hgB hAB hfA hfB ih hstep

/-! ## Claim C10 -/

/-- C10 (corrected): two concurrent POST `/dns` bodies for two different
fresh valid domains **each containing at least one dot**, interleaved
arbitrarily under the process-wide lock, both succeed: in every reachable
state where both threads are done, both recorded the "added" response and
the resulting dump parses to records containing each posted pair exactly
once - no lost update, because the lock serializes the read-modify-write
sequences.  The dot restriction is forced: for a validator-accepted
dotless domain both POSTs still succeed and the lock still serializes the
writes, but the dotless record never appears in a subsequent `GET /dns`
(see the counterexample and C8). -/
theorem concurrent_add_serialized (pairs0 : List (String × String)) (dA iA dB iB : String)
    (hg : ∀ p ∈ pairs0, GoodPair p.1 p.2) (hgA : GoodPair dA iA) (hgB : GoodPair dB iB)
    (hAB : dA ≠ dB)
    (hfA : (⟨dA, iA⟩ : Record) ∉ pairs0.map (fun p => (⟨p.1, p.2⟩ : Record)))
    (hfB : (⟨dB, iB⟩ : Record) ∉ pairs0.map (fun p => (⟨p.1, p.2⟩ : Record)))
    (s : CState)
    (hreach : Reach dA iA dB iB (initC (pairs0.map (fun p => entryFor p.1 p.2))) s)
    (hA : s.thA.phase = .done) (hB : s.thB.phase = .done) :
    s.thA.resp = some (.added dA iA) ∧ s.thB.resp = some (.added dB iB) ∧
    List.count (⟨dA, iA⟩ : Record) (parseDump (renderDump s.store)) = 1 ∧
    List.count (⟨dB, iB⟩ : Record) (parseDump (renderDump s.store)) = 1 := by
  obtain ⟨-, -, ⟨l, hstore, hperm⟩, -, -, hrespA, hrespB⟩ :=
    reach_inv hg hgA hgB hAB hfA hfB hreach
  have hperm2 : l.Perm [entryFor dA iA, entryFor dB iB] := by
    simpa [wrote, hA, hB] using hperm
  have hne1 : (⟨dB, iB⟩ : Record) ≠ ⟨dA, iA⟩ := by
    intro hh
    injection hh with h1 _
    exact hAB h1.symm
  have hne2 : (⟨dA, iA⟩ : Record) ≠ ⟨dB, iB⟩ := fun hh => hne1 hh.symm
  have hrec : parseDump (renderDump s.store) =
      pairs0.map (fun p => (⟨p.1, p.2⟩ : Record)) ++ [⟨dA, iA⟩, ⟨dB, iB⟩] ∨
      parseDump (renderDump s.store) =
      pairs0.map (fun p => (⟨p.1, p.2⟩ : Record)) ++ [⟨dB, iB⟩, ⟨dA, iA⟩] := by
    rcases perm_pair hperm2 with hl | hl
    · left
      rw [hstore, hl]
      rw [show (pairs0.map (fun p => entryFor p.1 p.2)) ++
          [entryFor dA iA, entryFor dB iB] =
          ((pairs0 ++ [(dA, iA)]) ++ [(dB, iB)]).map (fun p => entryFor p.1 p.2)
        from by simp]
      rw [parseDump_renderDump _ (goodPairs_snoc (goodPairs_snoc hg hgA) hgB)]
      simp
    · right
      rw [hstore, hl]
      rw [show (pairs0.map (fun p => entryFor p.1 p.2)) ++
          [entryFor dB iB, entryFor dA iA] =
          ((pairs0 ++ [(dB, iB)]) ++ [(dA, iA)]).map (fun p => entryFor p.1 p.2)
        from by simp]
      rw [parseDump_renderDump _ (goodPairs_snoc (goodPairs_snoc hg hgB) hgA)]
      simp
  refine ⟨hrespA (Or.inr hA), hrespB (Or.inr hB), ?_, ?_⟩
  · rcases hrec with h | h
    · rw [h, List.count_append, List.count_eq_zero.mpr hfA]
      simp [List.count_cons, hne1]
    · rw [h, List.count_append, List.count_eq_zero.mpr hfA]
      simp [List.count_cons, hne1]
  · rcases hrec with h | h
    · rw [h, List.count_append, List.count_eq_zero.mpr hfB]
      simp [List.count_cons, hne2]
    · rw [h, List.count_append, List.count_eq_zero.mpr hfB]
      simp [List.count_cons, hne2]

/-- Witness for C10: an explicit interleaved execution on an empty store in
which thread A posts `(a.b, 1.1.1.1)` and thread B posts `(c.d, 2.2.2.2)`;
at its final state both responses are "added" and both records appear
exactly once in the parsed dump. -/
theorem concurrent_add_serialized_witness :
    (⟨["/a.b/1.1.1.1", "/c.d/2.2.2.2"], none,
      ⟨.done, [], some (.added "a.b" "1.1.1.1")⟩,
      ⟨.done, [⟨"a.b", "1.1.1.1"⟩], some (.added "c.d" "2.2.2.2")⟩⟩ :
        CState).thA.resp = some (.added "a.b" "1.1.1.1") ∧
    (⟨["/a.b/1.1.1.1", "/c.d/2.2.2.2"], none,
      ⟨.done, [], some (.added "a.b" "1.1.1.1")⟩,
      ⟨.done, [⟨"a.b", "1.1.1.1"⟩], some (.added "c.d" "2.2.2.2")⟩⟩ :
        CState).thB.resp = some (.added "c.d" "2.2.2.2") ∧
    List.count (⟨"a.b", "1.1.1.1"⟩ : Record)
      (parseDump (renderDump ["/a.b/1.1.1.1", "/c.d/2.2.2.2"])) = 1 ∧
    List.count (⟨"c.d", "2.2.2.2"⟩ : Record)
      (parseDump (renderDump ["/a.b/1.1.1.1", "/c.d/2.2.2.2"])) = 1 := by
  have hreach : Reach "a.b" "1.1.1.1" "c.d" "2.2.2.2"
      (initC [])
      ⟨["/a.b/1.1.1.1", "/c.d/2.2.2.2"], none,
        ⟨.done, [], some (.added "a.b" "1.1.1.1")⟩,
        ⟨.done, [⟨"a.b", "1.1.1.1"⟩], some (.added "c.d" "2.2.2.2")⟩⟩ :=
    Relation.ReflTransGen.head (Step.acquireA (initC []) rfl rfl)
      (Relation.ReflTransGen.head
        (Step.readA ⟨[], some true, ⟨.locked, [], none⟩, ⟨.ready, [], none⟩⟩ rfl rfl)
      (Relation.ReflTransGen.head
        (Step.writeA_miss ⟨[], some true, ⟨.readDone, [], none⟩, ⟨.ready, [], none⟩⟩
          rfl rfl (by decide))
      (Relation.ReflTransGen.head
        (Step.releaseA ⟨["/a.b/1.1.1.1"], some true,
          ⟨.written, [], some (.added "a.b" "1.1.1.1")⟩, ⟨.ready, [], none⟩⟩ rfl rfl)
      (Relation.ReflTransGen.head
        (Step.acquireB ⟨["/a.b/1.1.1.1"], none,
          ⟨.done, [], some (.added "a.b" "1.1.1.1")⟩, ⟨.ready, [], none⟩⟩ rfl rfl)
      (Relation.ReflTransGen.head
        (Step.readB ⟨["/a.b/1.1.1.1"], some false,
          ⟨.done, [], some (.added "a.b" "1.1.1.1")⟩, ⟨.locked, [], none⟩⟩ rfl rfl)
      (Relation.ReflTransGen.head
        (Step.writeB_miss ⟨["/a.b/1.1.1.1"], some false,
          ⟨.done, [], some (.added "a.b" "1.1.1.1")⟩,
          ⟨.readDone, [⟨"a.b", "1.1.1.1"⟩], none⟩⟩ rfl rfl (by decide))
      (Relation.ReflTransGen.head
        (Step.releaseB ⟨["/a.b/1.1.1.1", "/c.d/2.2.2.2"], some false,
          ⟨.done, [], some (.added "a.b" "1.1.1.1")⟩,
          ⟨.written, [⟨"a.b", "1.1.1.1"⟩], some (.added "c.d" "2.2.2.2")⟩⟩ rfl rfl)
      Relation.ReflTransGen.refl)))))))
  exact concurrent_add_serialized [] "a.b" "1.1.1.1" "c.d" "2.2.2.2"
    (by simp) (by decide) (by decide) (by decide) (by decide) (by decide)
    ⟨["/a.b/1.1.1.1", "/c.d/2.2.2.2"], none,
      ⟨.done, [], some (.added "a.b" "1.1.1.1")⟩,
      ⟨.done, [⟨"a.b", "1.1.1.1"⟩], some (.added "c.d" "2.2.2.2")⟩⟩
    hreach rfl rfl

/-- Counterexample for C10: the claim quantifies over every pair of
different valid domains, but for the validator-accepted dotless domain
`abc` the conclusion fails.  In this explicit interleaved execution on an
empty store, thread A posts `(abc, 1.1.1.1)` and thread B posts
`(c.d, 2.2.2.2)`; both requests succeed (both responses are "added", the
lock serializes the writes and nothing is lost from the store), yet the
record `(abc, 1.1.1.1)` appears zero times - not at all - in the parsed
dump a subsequent `GET /dns` would return. -/
theorem concurrent_add_serialized_cex :
    validate_domain "abc" = true ∧ validate_ip "1.1.1.1" = true ∧
    validate_domain "c.d" = true ∧ validate_ip "2.2.2.2" = true ∧
    Reach "abc" "1.1.1.1" "c.d" "2.2.2.2" (initC [])
      ⟨["/abc/1.1.1.1", "/c.d/2.2.2.2"], none,
        ⟨.done, [], some (.added "abc" "1.1.1.1")⟩,
        ⟨.done, [], some (.added "c.d" "2.2.2.2")⟩⟩ ∧
    (⟨["/abc/1.1.1.1", "/c.d/2.2.2.2"], none,
      ⟨.done, [], some (.added "abc" "1.1.1.1")⟩,
      ⟨.done, [], some (.added "c.d" "2.2.2.2")⟩⟩ :
        CState).thA.resp = some (.added "abc" "1.1.1.1") ∧
    (⟨["/abc/1.1.1.1", "/c.d/2.2.2.2"], none,
      ⟨.done, [], some (.added "abc" "1.1.1.1")⟩,
      ⟨.done, [], some (.added "c.d" "2.2.2.2")⟩⟩ :
        CState).thB.resp = some (.added "c.d" "2.2.2.2") ∧
    List.count (⟨"abc", "1.1.1.1"⟩ : Record)
      (parseDump (renderDump ["/abc/1.1.1.1", "/c.d/2.2.2.2"])) = 0 ∧
    (list_dns ⟨["/abc/1.1.1.1", "/c.d/2.2.2.2"], none, none, false⟩).resp =
      .records [⟨"c.d", "2.2.2.2"⟩] := by
  refine ⟨by decide, by decide, by decide, by decide, ?_, rfl, rfl, by decide, by decide⟩
  exact Relation.ReflTransGen.head (Step.acquireA (initC []) rfl rfl)
    (Relation.ReflTransGen.head
      (Step.readA ⟨[], some true, ⟨.locked, [], none⟩, ⟨.ready, [], none⟩⟩ rfl rfl)
    (Relation.ReflTransGen.head
      (Step.writeA_miss ⟨[], some true, ⟨.readDone, [], none⟩, ⟨.ready, [], none⟩⟩
        rfl rfl (by decide))
    (Relation.ReflTransGen.head
      (Step.releaseA ⟨["/abc/1.1.1.1"], some true,
        ⟨.written, [], some (.added "abc" "1.1.1.1")⟩, ⟨.ready, [], none⟩⟩ rfl rfl)
    (Relation.ReflTransGen.head
      (Step.acquireB ⟨["/abc/1.1.1.1"], none,
        ⟨.done, [], some (.added "abc" "1.1.1.1")⟩, ⟨.ready, [], none⟩⟩ rfl rfl)
    (Relation.ReflTransGen.head
      (Step.readB ⟨["/abc/1.1.1.1"], some false,
        ⟨.done, [], some (.added "abc" "1.1.1.1")⟩, ⟨.locked, [], none⟩⟩ rfl rfl)
    (Relation.ReflTransGen.head
      (Step.writeB_miss ⟨["/abc/1.1.1.1"], some false,
        ⟨.done, [], some (.added "abc" "1.1.1.1")⟩,
        ⟨.readDone, [], none⟩⟩ rfl rfl (by decide))
    (Relation.ReflTransGen.head
      (Step.releaseB ⟨["/abc/1.1.1.1", "/c.d/2.2.2.2"], some false,
        ⟨.done, [], some (.added "abc" "1.1.1.1")⟩,
        ⟨.written, [], some (.added "c.d" "2.2.2.2")⟩⟩ rfl rfl)
    Relation.ReflTransGen.refl)))))))

/-- Counterexample for C1: the claim states a non-zero exit of the final
replacement `add_list` of a PUT yields an error response; on this concrete
input the add fails yet the response is `{"status":"updated"}` with HTTP
200, and `commit`/`reload` still run. -/
theorem mutation_exit_code_checks_cex :
    (update_dns ⟨["/a.b/1.2.3.4"], none, some "boom", false⟩
        ⟨some "a.b", none, some "5.6.7.8"⟩).resp = .updated "a.b" "5.6.7.8" ∧
    (update_dns ⟨["/a.b/1.2.3.4"], none, some "boom", false⟩
        ⟨some "a.b", none, some "5.6.7.8"⟩).resp.statusCode = 200 ∧
    Cmd.commit ∈ (update_dns ⟨["/a.b/1.2.3.4"], none, some "boom", false⟩
        ⟨some "a.b", none, some "5.6.7.8"⟩).trace := by
  refine ⟨by decide, by decide, by decide⟩

end DnsApi
